import Mathlib

/-!
Verification development for the polysat saturation inference core
(src/math/polysat/saturation.cpp) and the polysat e-graph slice adapter
(polysat_egraph.cpp) of this repository.

The polynomial data structure (PDD) is a collaborator that is not part of
the sources under verification; it is modelled from the specification
(section 4.1 of the design document): multivariate polynomials over
Z mod 2^K with semantic (canonical) equality, degree, linear factorisation,
evaluation under a partial assignment, and exact division.  A polynomial is
represented as a raw list of terms (coefficient, monomial); all observable
operations (equality, degree, is_val, ...) are defined through the semantic
coefficient function, matching the canonical behaviour of PDDs.
-/

/-- Modelled from the spec: a monomial is a multiset of variables, kept as a
raw list; two monomials are the same when they are equal as multisets. -/
abbrev Monom := List Nat

/-- Modelled from the spec: a polynomial is a formal sum of terms
(coefficient, monomial); the coefficient function below gives its canonical
semantics modulo 2^K. -/
abbrev Pol := List (Nat × Monom)

/-- Unreduced coefficient of monomial m in p: the sum of the coefficients of
all terms of p whose monomial is m as a multiset. -/
def rawCoeff (p : Pol) (m : Multiset Nat) : Nat :=
  p.foldr (fun t acc => if (t.2 : Multiset Nat) = m then t.1 + acc else acc) 0

/-- Canonical coefficient of monomial m in p, reduced modulo Mv. -/
def coeff (Mv : Nat) (p : Pol) (m : Multiset Nat) : Nat :=
  rawCoeff p m % Mv

/-- Coefficient of monomial m in p as an element of ZMod Mv (proof-side view
of the canonical coefficient). -/
def czM (Mv : Nat) (p : Pol) (m : Multiset Nat) : ZMod Mv :=
  p.foldr (fun t acc => if (t.2 : Multiset Nat) = m then (t.1 : ZMod Mv) + acc else acc) 0

/-- Modelled from the spec: PDD equality is canonical, i.e. two polynomials
are equal iff all canonical coefficients agree; it suffices to compare the
coefficients of the monomials occurring in either raw term list. -/
def peqB (Mv : Nat) (p q : Pol) : Bool :=
  (p ++ q).all (fun t => coeff Mv p t.2 == coeff Mv q t.2)

/-- Addition of polynomials: concatenation of term lists. -/
def padd (p q : Pol) : Pol := p ++ q

/-- Multiplication of polynomials: all cross products of terms, monomials
concatenated (multiset union). -/
def pmul (p q : Pol) : Pol :=
  p.bind (fun u => q.map (fun t => (u.1 * t.1, u.2 ++ t.2)))

/-- Negation modulo Mv: each coefficient c becomes (Mv - c % Mv) % Mv. -/
def pneg (Mv : Nat) (p : Pol) : Pol :=
  p.map (fun t => ((Mv - t.1 % Mv) % Mv, t.2))

/-- Subtraction modulo Mv. -/
def psub (Mv : Nat) (p q : Pol) : Pol := padd p (pneg Mv q)

/-- Constant polynomial. -/
def pconst (c : Nat) : Pol := [(c, [])]

/-- The polynomial consisting of a single variable. -/
def pvar (v : Nat) : Pol := [(1, [v])]

/-- Monomials of the raw term list of p, de-duplicated up to multiset
equality (each kept representative is pairwise non-equivalent). -/
def dedupMonoms : List Monom → List Monom
  | [] => []
  | m :: ms =>
    let rest := dedupMonoms ms
    if rest.any (fun m2 => decide ((m2 : Multiset Nat) = (m : Multiset Nat))) then rest
    else m :: rest

/-- Support of p: representative monomials with non-zero canonical
coefficient. -/
def supportL (Mv : Nat) (p : Pol) : List Monom :=
  (dedupMonoms (p.map (·.2))).filter (fun (m : Monom) => coeff Mv p (↑m) != 0)

/-- Degree of p in variable v: largest multiplicity of v in a monomial of
the support (canonical degree, as for PDDs). -/
def degree (Mv : Nat) (p : Pol) (v : Nat) : Nat :=
  (supportL Mv p).foldr (fun m acc => max (m.count v) acc) 0

/-- p.is_val(): p is a constant polynomial (support contains at most the
empty monomial). -/
def isVal (Mv : Nat) (p : Pol) : Bool :=
  match supportL Mv p with
  | [] => true
  | [m] => m.isEmpty
  | _ => false

/-- Value of a constant polynomial (coefficient of the empty monomial). -/
def pval (Mv : Nat) (p : Pol) : Nat := coeff Mv p 0

/-- p.is_one(). -/
def isOne (Mv : Nat) (p : Pol) : Bool := isVal Mv p && (pval Mv p == 1)

/-- p.is_max(): p is the constant 2^K - 1. -/
def isMax (Mv : Nat) (p : Pol) : Bool := isVal Mv p && (pval Mv p == Mv - 1)

/-- p.is_var(): p is a single variable with coefficient 1; returns the
variable. -/
def isVarD (Mv : Nat) (p : Pol) : Option Nat :=
  match supportL Mv p with
  | [[w]] => if coeff Mv p {w} == 1 then some w else none
  | _ => none

/-- p.is_unary(): p = c * v for a single variable v and a non-zero
coefficient c; returns (v, c) (pdd accessors p.var() and p.hi().val()). -/
def isUnaryD (Mv : Nat) (p : Pol) : Option (Nat × Nat) :=
  match supportL Mv p with
  | [[w]] => some (w, coeff Mv p {w})
  | _ => none

/-- factor(p, v, 1, a, b): split p into a * v + b, where a collects the
terms containing v (with one occurrence of v removed) and b the terms not
containing v. -/
def factor1 (p : Pol) (v : Nat) : Pol × Pol :=
  (p.filterMap (fun t => if v ∈ t.2 then some (t.1, t.2.erase v) else none),
   p.filter (fun t => !(v ∈ t.2 : Bool)))

/-- factor(p, v, 1, a): the single-output overload; succeeds iff the
remainder of the split is the zero polynomial, returning the cofactor. -/
def factorEx (Mv : Nat) (p : Pol) (v : Nat) : Option Pol :=
  if peqB Mv (factor1 p v).2 [] then some (factor1 p v).1 else none

/-- Modelled from the spec: try_div(p, k, out) divides p by the integer k
exactly, if possible: every canonical coefficient must be divisible by k. -/
def tryDiv (Mv : Nat) (p : Pol) (c : Nat) : Option Pol :=
  if c != 0 && (supportL Mv p).all (fun (m : Monom) => coeff Mv p (↑m) % c == 0) then
    some ((supportL Mv p).map (fun (m : Monom) => (coeff Mv p (↑m) / c, m)))
  else none

/-- Total evaluation of a monomial under a total assignment. -/
def evalMonom (σ : Nat → Nat) (m : Monom) : Nat :=
  m.foldr (fun v acc => σ v * acc) 1

/-- Total evaluation of p under a total assignment, reduced modulo Mv. -/
def evalPoly (Mv : Nat) (σ : Nat → Nat) (p : Pol) : Nat :=
  (p.foldr (fun t acc => t.1 * evalMonom σ t.2 + acc) 0) % Mv

/-!  Signed constraints, inequalities, and the solver state visible to the
saturation core (saturation.cpp interacts with it through the premise
oracle, the boolean trail and the current model assignment). -/

/-- Constraint atoms used by the saturation rules.  Modelled from the spec:
eq, ult, uge, odd and even are derived forms (below); parity(p, k) states
that the low k bits of p are zero. -/
inductive PAtom where
  | ule (p q : Pol)
  | umulOvfl (p q : Pol)
  | parity (p : Pol) (k : Nat)
deriving DecidableEq, Repr

/-- A signed constraint: an atom with a polarity (true = positive). -/
structure SC where
  atom : PAtom
  sign : Bool
deriving DecidableEq, Repr

/-- Negation of a signed constraint. -/
def scNeg (c : SC) : SC := ⟨c.atom, !c.sign⟩

/-- ule(p, q). -/
def scUle (p q : Pol) : SC := ⟨.ule p q, true⟩

/-- Modelled from the spec: ult(p, q) is the negation of ule(q, p). -/
def scUlt (p q : Pol) : SC := ⟨.ule q p, false⟩

/-- Modelled from the spec: eq(p) is ule(p, 0) (p ≤ 0 iff p = 0). -/
def scEq (p : Pol) : SC := ⟨.ule p [], true⟩

/-- Modelled from the spec: eq(p, k) is eq(p - k). -/
def scEqV (Mv : Nat) (p : Pol) (k : Nat) : SC := scEq (psub Mv p (pconst k))

/-- Modelled from the spec: uge(p, k) is ule(k, p). -/
def scUge (p : Pol) (k : Nat) : SC := scUle (pconst k) p

/-- umul_ovfl(p, q). -/
def scUmulOvfl (p q : Pol) : SC := ⟨.umulOvfl p q, true⟩

/-- parity(p, k). -/
def scParity (p : Pol) (k : Nat) : SC := ⟨.parity p k, true⟩

/-- Modelled from the spec: even(p) is parity(p, 1). -/
def scEven (p : Pol) : SC := scParity p 1

/-- Modelled from the spec: odd(p) is the negation of parity(p, 1). -/
def scOdd (p : Pol) : SC := scNeg (scParity p 1)

/-- c->is_ule(). -/
def isUleSC (c : SC) : Bool :=
  match c.atom with
  | .ule _ _ => true
  | _ => false

/-- Semantic equivalence of atoms (PDD arguments compared canonically);
this is the deduplicated identity of constraints in the constraint store. -/
def atomEquiv (Mv : Nat) (a b : PAtom) : Bool :=
  match a, b with
  | .ule p q, .ule r s => peqB Mv p r && peqB Mv q s
  | .umulOvfl p q, .umulOvfl r s => peqB Mv p r && peqB Mv q s
  | .parity p k, .parity r j => peqB Mv p r && (k == j)
  | _, _ => false

/-- Semantic equivalence of signed constraints. -/
def scEquiv (Mv : Nat) (c d : SC) : Bool :=
  (c.sign == d.sign) && atomEquiv Mv c.atom d.atom

/-- An entry of the search trail: either a boolean literal (with its
resolved flag) or a variable assignment entry. -/
inductive SItem where
  | boolItem (c : SC) (resolved : Bool)
  | varItem (v : Nat)
deriving DecidableEq, Repr

/-- The solver state visible to the saturation core: bit width K, the
current (partial) model assignment, the search trail, and the boolean
valuation of atoms on the trail (bvalue). -/
structure State where
  K : Nat
  assign : List (Nat × Nat)
  search : List SItem
  batoms : List (PAtom × Bool)
deriving Repr

/-- 2^K, the modulus of the state. -/
def State.M (st : State) : Nat := 2 ^ st.K

/-- s.is_assigned(v) and s.get_value(v): current model value of a variable. -/
def State.val (st : State) (v : Nat) : Option Nat :=
  (st.assign.find? (fun t => t.1 == v)).map (·.2)

/-- try_eval of a monomial: defined only when all variables are assigned. -/
def tryEvalMonom (st : State) (m : Monom) : Option Nat :=
  m.foldr (fun v acc =>
    match st.val v, acc with
    | some x, some r => some (x * r)
    | _, _ => none) (some 1)

/-- s.try_eval(p): evaluate p under the current model assignment; succeeds
only when every variable of p has a committed value.  The result is reduced
modulo 2^K. -/
def tryEvalP (st : State) (p : Pol) : Option Nat :=
  (p.foldr (fun t acc =>
    match tryEvalMonom st t.2, acc with
    | some mv, some r => some (t.1 * mv + r)
    | _, _ => none) (some 0)).map (· % st.M)

/-- Semantic value of an atom under the current model, when defined. -/
def evalAtomP (st : State) : PAtom → Option Bool
  | .ule p q =>
    match tryEvalP st p, tryEvalP st q with
    | some a, some b => some (a ≤ b)
    | _, _ => none
  | .umulOvfl p q =>
    match tryEvalP st p, tryEvalP st q with
    | some a, some b => some (st.M ≤ a * b)
    | _, _ => none
  | .parity p k =>
    match tryEvalP st p with
    | some a => some (a % 2 ^ k == 0)
    | _ => none

/-- Semantic value of a signed constraint under the current model. -/
def currVal (st : State) (c : SC) : Option Bool :=
  (evalAtomP st c.atom).map (fun b => b == c.sign)

/-- c.is_currently_true(s). -/
def isCurrentlyTrue (st : State) (c : SC) : Bool := currVal st c == some true

/-- c.is_currently_false(s). -/
def isCurrentlyFalse (st : State) (c : SC) : Bool := currVal st c == some false

/-- bvalue of an atom on the trail (l_undef when absent). -/
def State.bvalAtom (st : State) (a : PAtom) : Option Bool :=
  (st.batoms.find? (fun t => atomEquiv st.M t.1 a)).map (·.2)

/-- c.bvalue(s): boolean value of a signed constraint. -/
def bval (st : State) (c : SC) : Option Bool :=
  (st.bvalAtom c.atom).map (fun b => b == c.sign)

/-- is_forced_false(c): bvalue(c) = l_false or c currently evaluates false. -/
def isForcedFalse (st : State) (c : SC) : Bool :=
  bval st c == some false || isCurrentlyFalse st c

/-- is_forced_true(c): bvalue(c) = l_true or c currently evaluates true. -/
def isForcedTrue (st : State) (c : SC) : Bool :=
  bval st c == some true || isCurrentlyTrue st c

/-- is_forced_eq(p, val). -/
def isForcedEq (st : State) (p : Pol) (k : Nat) : Bool :=
  tryEvalP st p == some (k % st.M)

/-- is_forced_diseq(p, i, c): c := eq(p, i); succeeds iff c is forced
false, returning the witness constraint. -/
def isForcedDiseq (st : State) (p : Pol) (k : Nat) : Option SC :=
  let c := scEqV st.M p k
  if isForcedFalse st c then some c else none

/-- is_forced_odd(p, c): c := odd(p); succeeds iff c is forced true. -/
def isForcedOdd (st : State) (p : Pol) : Option SC :=
  let c := scOdd p
  if isForcedTrue st c then some c else none

/-- The inequality view of a ≤-constraint: lhs ⋈ rhs with a strictness
flag; as_signed_constraint is the original constraint. -/
structure Ineq where
  lhs : Pol
  rhs : Pol
  strict : Bool
  src : SC
deriving DecidableEq, Repr

/-- inequality::from_ule: a positive ule(p, q) is p ≤ q; a negated ule(p, q)
is the strict q < p. -/
def fromUle (c : SC) : Ineq :=
  match c.atom with
  | .ule p q => if c.sign then ⟨p, q, false, c⟩ else ⟨q, p, true, c⟩
  | _ => ⟨[], [], false, c⟩

/-- saturation::ineq(is_strict, lhs, rhs). -/
def mkIneq (is_strict : Bool) (p q : Pol) : SC :=
  if is_strict then scUlt p q else scUle p q

/-- is_non_overflow(x, y): the semantic check x_val * y_val < 2^K. -/
def isNonOverflow2 (st : State) (x y : Pol) : Bool :=
  match tryEvalP st x, tryEvalP st y with
  | some a, some b => a * b < st.M
  | _, _ => false

/-- is_non_overflow(x, y, c): first the semantic check (c becomes the fresh
literal ¬umul_ovfl(x, y)); otherwise scan the trail for an unresolved
boolean entry whose literal d is a negated umul_ovfl(p, q) with x among
{p, q} and y among {p, q}; c becomes that literal. -/
def isNonOverflow3 (st : State) (x y : Pol) : Option SC :=
  if isNonOverflow2 st x y then some (scNeg (scUmulOvfl x y))
  else st.search.findSome? (fun si =>
    match si with
    | .boolItem d res =>
      if res then none
      else
        match d.atom, d.sign with
        | .umulOvfl p q, false =>
          if (peqB st.M x p || peqB st.M x q) && (peqB st.M y p || peqB st.M y q) then
            some d
          else none
        | _, _ => none
    | .varItem _ => none)

/-!  Pattern matchers of saturation.cpp and their verify counterparts. -/

/-- is_xY(x, xy, y): xy.degree(x) == 1 and xy factors exactly as y * x. -/
def isXY (Mv : Nat) (x : Nat) (xy : Pol) : Option Pol :=
  if degree Mv xy x == 1 then factorEx Mv xy x else none

/-- is_coeffxY(x, p, y): x is unary (c * v); p is divided exactly by c and
the quotient factors exactly as y * v. -/
def isCoeffxY (Mv : Nat) (x p : Pol) : Option Pol :=
  match isUnaryD Mv x with
  | none => none
  | some (w, c) =>
    match tryDiv Mv p c with
    | none => none
    | some xy => factorEx Mv xy w

/-- is_Y_l_Ax(x, i, a, y): match [x] y ≤ a*x, binding (a, y). -/
def isYlAx (Mv : Nat) (x : Nat) (i : Ineq) : Option (Pol × Pol) := do
  let a ← isXY Mv x i.rhs
  pure (a, i.lhs)

/-- verify_Y_l_Ax. -/
def verifyYlAx (Mv : Nat) (x : Nat) (i : Ineq) (a y : Pol) : Bool :=
  peqB Mv i.lhs y && peqB Mv i.rhs (pmul a (pvar x))

/-- is_Ax_l_Y(x, i, a, y): match [x] a*x ≤ y, binding (a, y). -/
def isAxlY (Mv : Nat) (x : Nat) (i : Ineq) : Option (Pol × Pol) := do
  let a ← isXY Mv x i.lhs
  pure (a, i.rhs)

/-- verify_Ax_l_Y. -/
def verifyAxlY (Mv : Nat) (x : Nat) (i : Ineq) (a y : Pol) : Bool :=
  peqB Mv i.rhs y && peqB Mv i.lhs (pmul a (pvar x))

/-- is_AxB_l_Y(x, i, a, b, y): match [x] a*x + b ≤ y.  As in the source,
the factorisation of the left-hand side is compared against the incoming
values of the output parameters a and b (which are left unchanged); the
binding for y is i.rhs. -/
def isAxBlY (Mv : Nat) (x : Nat) (i : Ineq) (a b : Pol) : Bool :=
  degree Mv i.lhs x == 1 && peqB Mv (factor1 i.lhs x).1 a && peqB Mv (factor1 i.lhs x).2 b

/-- verify_AxB_l_Y. -/
def verifyAxBlY (Mv : Nat) (x : Nat) (i : Ineq) (a b y : Pol) : Bool :=
  peqB Mv i.rhs y && peqB Mv i.lhs (padd (pmul a (pvar x)) b)

/-- is_AxB_eq_0(x, i, a, b, y): match [x] a*x + b ≤ y with val(y) = 0,
binding (a, b, y). -/
def isAxBeq0 (st : State) (x : Nat) (i : Ineq) : Option (Pol × Pol × Pol) :=
  match tryEvalP st i.rhs with
  | some 0 =>
    if degree st.M i.lhs x == 1 then
      some ((factor1 i.lhs x).1, (factor1 i.lhs x).2, i.rhs)
    else none
  | _ => none

/-- is_Xy_l_XZ(v, i, x, z): match [v] v*x ≤ z*x with x a variable (times a
coefficient), binding (x, z). -/
def isXylXZ (Mv : Nat) (v : Nat) (i : Ineq) : Option (Pol × Pol) := do
  let x ← isXY Mv v i.lhs
  let z ← isCoeffxY Mv x i.rhs
  pure (x, z)

/-- verify_Xy_l_XZ. -/
def verifyXylXZ (Mv : Nat) (v : Nat) (i : Ineq) (x z : Pol) : Bool :=
  peqB Mv i.lhs (pmul (pvar v) x) && peqB Mv i.rhs (pmul z x)

/-- is_YX_l_zX(z, i, x, y): match [z] y*x ≤ z*x with x a variable (times a
coefficient), binding (x, y). -/
def isYXlzX (Mv : Nat) (z : Nat) (i : Ineq) : Option (Pol × Pol) := do
  let x ← isXY Mv z i.rhs
  let y ← isCoeffxY Mv x i.lhs
  pure (x, y)

/-- verify_YX_l_zX. -/
def verifyYXlzX (Mv : Nat) (z : Nat) (i : Ineq) (x y : Pol) : Bool :=
  peqB Mv i.lhs (pmul y x) && peqB Mv i.rhs (pmul (pvar z) x)

/-- is_xY_l_xZ(x, i, y, z): match [x] x*y ≤ x*z, binding (y, z). -/
def isXYlXZpair (Mv : Nat) (x : Nat) (i : Ineq) : Option (Pol × Pol) := do
  let y ← isXY Mv x i.lhs
  let z ← isXY Mv x i.rhs
  pure (y, z)

/-!  The lemma builder and the two finalisation modes. -/

/-- Names of the saturation rules. -/
inductive RName where
  | mulBounds | parityRule | factorEq | ugtX | ugtY | ugtZ | ylAxXlZ | tangent | mulEq1
deriving DecidableEq, Repr

/-- Finalisation mode of a lemma: unit propagation or conflict lemma. -/
inductive LKind where
  | prop | confl
deriving DecidableEq, Repr

/-- A lemma registered through conflict.add_lemma: the rule tag, the
finalisation mode, and the clause in insertion order; each literal carries
a flag telling whether it was added through insert_eval (true) or through
insert (false). -/
structure Emitted where
  tag : RName
  kind : LKind
  clause : List (Bool × SC)
deriving DecidableEq, Repr

/-- saturation::propagate(core, crit, c): fails if the consequent c is
forced true; otherwise inserts ¬crit and the consequent c (both through
insert) after the literals already in the builder and registers the lemma. -/
def propagate (st : State) (crit : Ineq) (c : SC) (l0 : List (Bool × SC)) :
    Option (List (Bool × SC)) :=
  if isForcedTrue st c then none
  else some (l0 ++ [(false, scNeg crit.src), (false, c)])

/-- saturation::add_conflict(core, crit1, crit2, c): inserts ¬crit1 and
(when distinct) ¬crit2; fails unless the consequent is forced false and not
already trail-true; the consequent is added through insert_eval. -/
def addConflict2 (st : State) (crit1 crit2 : Ineq) (c : SC) (l0 : List (Bool × SC)) :
    Option (List (Bool × SC)) :=
  let l1 := l0 ++ [(false, scNeg crit1.src)] ++
    (if scEquiv st.M crit1.src crit2.src then [] else [(false, scNeg crit2.src)])
  if !(isForcedFalse st c) then none
  else if bval st c == some true then none
  else some (l1 ++ [(true, c)])

/-- saturation::add_conflict(core, crit, c). -/
def addConflict1 (st : State) (crit : Ineq) (c : SC) (l0 : List (Bool × SC)) :
    Option (List (Bool × SC)) :=
  addConflict2 st crit crit c l0

/-!  The saturation rules, translated from saturation.cpp. -/

/-- saturation::try_ugt_x. -/
def tryUgtX (st : State) (v : Nat) (i : Ineq) : Option Emitted :=
  let x := pvar v
  match isXYlXZpair st.M v i with
  | none => none
  | some (y, z) =>
    if !i.strict && st.val v == some 0 then none
    else
      match isNonOverflow3 st x y with
      | none => none
      | some novfl =>
        let l0 := [(true, scNeg novfl)] ++ (if !i.strict then [(true, scEq x)] else [])
        (addConflict1 st i (mkIneq i.strict y z) l0).map (fun cl => ⟨.ugtX, .confl, cl⟩)

/-- Inner step of saturation::try_ugt_y for one trail literal z' ≤ y. -/
def tryUgtYone (st : State) (v : Nat) (ly i : Ineq) (x z : Pol) : Option Emitted :=
  let y := pvar v
  match isNonOverflow3 st x y with
  | none => none
  | some novfl =>
    (addConflict2 st ly i
      (mkIneq (i.strict || ly.strict) (pmul ly.lhs x) (pmul z x))
      [(true, scNeg novfl)]).map (fun cl => ⟨.ugtY, .confl, cl⟩)

/-- saturation::try_ugt_y: match [y] y*x ≤ z*x, then scan the trail for an
unresolved ≤-literal of the shape z' ≤ y. -/
def tryUgtY (st : State) (v : Nat) (i : Ineq) : Option Emitted :=
  match isXylXZ st.M v i with
  | none => none
  | some (x, z) =>
    st.search.findSome? (fun si =>
      match si with
      | .boolItem d res =>
        if res || !(isUleSC d) then none
        else
          let ly := fromUle d
          if peqB st.M ly.rhs (pvar v) then tryUgtYone st v ly i x z else none
      | .varItem _ => none)

/-- Inner step of saturation::try_ugt_z for one trail literal z ≤ y'. -/
def tryUgtZone (st : State) (z : Nat) (zly i : Ineq) (x y : Pol) : Option Emitted :=
  let yp := zly.rhs
  match isNonOverflow3 st x yp with
  | none => none
  | some novfl =>
    (addConflict2 st i zly
      (mkIneq (zly.strict || i.strict) (pmul y x) (pmul yp x))
      [(true, scNeg novfl)]).map (fun cl => ⟨.ugtZ, .confl, cl⟩)

/-- saturation::try_ugt_z: match [z] y*x ≤ z*x, then scan the trail for an
unresolved ≤-literal of the shape z ≤ y'. -/
def tryUgtZ (st : State) (z : Nat) (i : Ineq) : Option Emitted :=
  match isYXlzX st.M z i with
  | none => none
  | some (x, y) =>
    st.search.findSome? (fun si =>
      match si with
      | .boolItem d res =>
        if res || !(isUleSC d) then none
        else
          let zly := fromUle d
          if peqB st.M zly.lhs (pvar z) then tryUgtZone st z zly i x y else none
      | .varItem _ => none)

/-- Inner step of saturation::try_y_l_ax_and_x_l_z for one trail literal
x ≤ z. -/
def tryYlAxXlZone (st : State) (ylax xlz : Ineq) (a y : Pol) : Option Emitted :=
  let z := xlz.rhs
  match isNonOverflow3 st a z with
  | none => none
  | some novfl =>
    (addConflict2 st ylax xlz
      (mkIneq (xlz.strict || ylax.strict) y (pmul a z))
      [(true, scNeg novfl)]).map (fun cl => ⟨.ylAxXlZ, .confl, cl⟩)

/-- saturation::try_y_l_ax_and_x_l_z: match [x] y ≤ a*x with a ≠ 1, then
scan the trail for an unresolved ≤-literal x ≤ z. -/
def tryYlAxXlZ (st : State) (x : Nat) (i : Ineq) : Option Emitted :=
  match isYlAx st.M x i with
  | none => none
  | some (a, y) =>
    if isOne st.M a then none
    else
      st.search.findSome? (fun si =>
        match si with
        | .boolItem d res =>
          if res || !(isUleSC d) then none
          else
            let xlz := fromUle d
            if peqB st.M xlz.lhs (pvar x) then tryYlAxXlZone st i xlz a y else none
        | .varItem _ => none)

/-- The four insert_eval literals shared by the try_mul_bounds lemmas. -/
def mbBase (b y : Pol) (xeq0 aeq0 : SC) : List (Bool × SC) :=
  [(true, scNeg (scEq b)), (true, scNeg (scEq y)), (true, xeq0), (true, aeq0)]

/-- k_val of the trail literal u ≤⁺ k in try_mul_bounds: the value of the
constant right-hand side, minus one when the literal is strict. -/
def mbKval (st : State) (d : Ineq) : Nat :=
  pval st.M d.rhs - (if d.strict then 1 else 0)

/-- The bound ceil(2^K / k_val) of try_mul_bounds. -/
def mbBound (st : State) (k : Nat) : Nat := (st.M + k - 1) / k

/-- The operand Y of try_mul_bounds: X when the trail literal bounds a or
-a, a when it bounds X or -X. -/
def mbY (st : State) (a X lhs : Pol) : Option Pol :=
  if peqB st.M lhs a || peqB st.M lhs (pneg st.M a) then some X
  else if peqB st.M lhs X || peqB st.M lhs (pneg st.M X) then some a
  else none

/-- One step of the trail scan of try_mul_bounds. -/
def mbTrailStep (st : State) (i : Ineq) (a X : Pol) (base : List (Bool × SC)) (si : SItem) :
    Option (List (Bool × SC)) :=
  match si with
  | .boolItem d res =>
    if res || !(isUleSC d) then none
    else if !(isVal st.M (fromUle d).rhs) then none
    else if mbKval st (fromUle d) ≤ 1 then none
    else
      match mbY st a X (fromUle d).lhs with
      | none => none
      | some Y =>
        propagate st i (scUge Y (mbBound st (mbKval st (fromUle d))))
          (base ++ [(true, scNeg d)]) <|>
        propagate st i (scUge (pneg st.M Y) (mbBound st (mbKval st (fromUle d))))
          (base ++ [(true, scNeg d)])
  | .varItem _ => none

/-- The four overflow propagations of try_mul_bounds attempted after the
trail scan. -/
def mbOvflChain (st : State) (i : Ineq) (a X : Pol) (base : List (Bool × SC)) :
    Option (List (Bool × SC)) :=
  propagate st i (scUmulOvfl a X) base <|>
  propagate st i (scUmulOvfl a (pneg st.M X)) base <|>
  propagate st i (scUmulOvfl (pneg st.M a) X) base <|>
  propagate st i (scUmulOvfl (pneg st.M a) (pneg st.M X)) base

/-- saturation::try_mul_bounds. -/
def tryMulBounds (st : State) (x : Nat) (i : Ineq) : Option Emitted :=
  match isAxBeq0 st x i with
  | none => none
  | some (a, b, y) =>
    if isVal st.M a then none
    else if !(isForcedEq st b 0) then none
    else
      match isForcedDiseq st (pvar x) 0, isForcedDiseq st a 0 with
      | some xeq0, some aeq0 =>
        match st.search.findSome? (mbTrailStep st i a (pvar x) (mbBase b y xeq0 aeq0)) with
        | some cl => some ⟨.mulBounds, .prop, cl⟩
        | none =>
          (mbOvflChain st i a (pvar x) (mbBase b y xeq0 aeq0)).map
            (fun cl => ⟨.mulBounds, .prop, cl⟩)
      | _, _ => none

/-- saturation::try_mul_eq_1. -/
def tryMulEq1 (st : State) (x : Nat) (i : Ineq) : Option Emitted :=
  let X := pvar x
  match isAxBeq0 st x i with
  | none => none
  | some (a, b, y) =>
    if !(isForcedEq st b (st.M - 1)) then none
    else
      match isNonOverflow3 st a X with
      | none => none
      | some novfl =>
        let base := [(true, scNeg (scEqV st.M b (st.M - 1))), (true, scNeg (scEq y)),
                     (true, scNeg novfl)]
        (propagate st i (scEqV st.M X 1) base <|>
         propagate st i (scEqV st.M a 1) base).map
          (fun cl => ⟨.mulEq1, .prop, cl⟩)

/-- The while loops of try_parity that climb to the largest confirmed
parity (fuel-bounded version of: while k < K and parity(p, k+1) currently
true, increment k). -/
def climbP (st : State) (p : Pol) : Nat → Nat → Nat
  | 0, k => k
  | fuel + 1, k =>
    if k < st.K && isCurrentlyTrue st (scParity p (k + 1)) then climbP st p fuel (k + 1)
    else k

/-- The propagate1 helper of try_parity. -/
def parityProp1 (st : State) (i : Ineq) (y : Pol) (premise conseq : SC) :
    Option (List (Bool × SC)) :=
  propagate st i conseq [(true, scNeg (scEq y)), (true, scNeg premise)]

/-- The propagate2 helper of try_parity. -/
def parityProp2 (st : State) (i : Ineq) (y : Pol) (p1 p2 conseq : SC) :
    Option (List (Bool × SC)) :=
  propagate st i conseq [(true, scNeg (scEq y)), (true, scNeg p1), (true, scNeg p2)]

/-- Initial parity (1 when the oddness literal is currently false, else 0). -/
def parityAP0 (st : State) (p : Pol) : Nat :=
  if isCurrentlyFalse st (scOdd p) then 1 else 0

/-- The climbed maximal confirmed parity of try_parity. -/
def parityClimb (st : State) (p : Pol) : Nat :=
  climbP st p st.K (parityAP0 st p)

/-- try_parity, first inference: odd(a) and odd(x) propagate odd(b). -/
def parityStep1 (st : State) (x : Nat) (i : Ineq) (a b y : Pol) :
    Option (List (Bool × SC)) :=
  if isCurrentlyTrue st (scOdd a) && isCurrentlyTrue st (scOdd (pvar x)) then
    parityProp2 st i y (scOdd a) (scOdd (pvar x)) (scOdd b)
  else none

/-- try_parity, second inference: odd(b) propagates odd(a) and odd(x). -/
def parityStep2 (st : State) (x : Nat) (i : Ineq) (a b y : Pol) :
    Option (List (Bool × SC)) :=
  if isCurrentlyTrue st (scOdd b) then
    parityProp1 st i y (scOdd b) (scOdd a) <|>
    parityProp1 st i y (scOdd b) (scOdd (pvar x))
  else none

/-- try_parity, confirmed-parities block: a has parity aP > 0 or x has
parity xP > 0, and neither a nor x is forced zero; propagate
parity(b, min(K, aP + xP)). -/
def parityBlockA (st : State) (x : Nat) (i : Ineq) (a b y : Pol) :
    Option (List (Bool × SC)) :=
  if parityClimb st a > 0 && parityClimb st (pvar x) > 0 then
    parityProp2 st i y (scParity a (parityClimb st a))
      (scParity (pvar x) (parityClimb st (pvar x)))
      (scParity b (min st.K (parityClimb st a + parityClimb st (pvar x))))
  else if parityClimb st a > 0 && parityClimb st (pvar x) == 0 then
    parityProp1 st i y (scParity a (parityClimb st a))
      (scParity b (min st.K (parityClimb st a + parityClimb st (pvar x))))
  else if parityClimb st a == 0 && parityClimb st (pvar x) > 0 then
    parityProp1 st i y (scParity (pvar x) (parityClimb st (pvar x)))
      (scParity b (min st.K (parityClimb st a + parityClimb st (pvar x))))
  else none

/-- try_parity, bounded-parity block: b is not forced zero; with bp the
smallest parity refuted for b, propagate the parity bounds on a and x
(the first propagation is attempted twice, as in the source). -/
def parityBlockB (st : State) (x : Nat) (i : Ineq) (a b y : Pol) :
    Option (List (Bool × SC)) :=
  match (List.range' 1 (st.K - 1)).find? (fun bp => isCurrentlyFalse st (scParity b bp)) with
  | none => none
  | some bp =>
    parityProp1 st i y (scNeg (scParity b bp)) (scNeg (scParity a bp)) <|>
    parityProp1 st i y (scNeg (scParity b bp)) (scNeg (scParity a bp)) <|>
    (List.range' 1 (st.K - 1)).findSome? (fun j =>
      (if isCurrentlyTrue st (scParity a j) then
        parityProp2 st i y (scNeg (scParity b bp)) (scParity a j)
          (scNeg (scParity (pvar x) (bp - j)))
      else none) <|>
      (if isCurrentlyTrue st (scParity (pvar x) j) then
        parityProp2 st i y (scNeg (scParity b bp)) (scParity (pvar x) j)
          (scNeg (scParity a (bp - j)))
      else none))

/-- try_parity, third step: the confirmed-parities block when its guard
holds, otherwise the bounded-parity block when b is not forced zero. -/
def parityStep3 (st : State) (x : Nat) (i : Ineq) (a b y : Pol) :
    Option (List (Bool × SC)) :=
  if (parityAP0 st a > 0 || parityAP0 st (pvar x) > 0) &&
      !(isForcedEq st a 0) && !(isForcedEq st (pvar x) 0) then
    parityBlockA st x i a b y
  else if !(isForcedEq st b 0) then
    parityBlockB st x i a b y
  else none

/-- saturation::try_parity. -/
def tryParity (st : State) (x : Nat) (i : Ineq) : Option Emitted :=
  match isAxBeq0 st x i with
  | none => none
  | some (a, b, y) =>
    if isMax st.M a && (isVarD st.M b).isSome then none
    else if isOne st.M a && (isVarD st.M (pneg st.M b)).isSome then none
    else
      (parityStep1 st x i a b y <|> parityStep2 st x i a b y <|>
       parityStep3 st x i a b y).map (fun cl => ⟨.parityRule, .prop, cl⟩)

/-- saturation::try_factor_equality: a stub in the source, never matches. -/
def tryFactorEquality (_st : State) (_x : Nat) (_i : Ineq) : Option Emitted := none

/-- c->contains_var(v): the variable occurs in one of the polynomials of
the constraint. -/
def scContainsVar (Mv : Nat) (c : SC) (v : Nat) : Bool :=
  match c.atom with
  | .ule p q => degree Mv p v != 0 || degree Mv q v != 0
  | .umulOvfl p q => degree Mv p v != 0 || degree Mv q v != 0
  | .parity p _ => degree Mv p v != 0

/-- The is_linear computation of try_tangent: both sides have degree at
most one in v and any degree-one cofactor is a constant. -/
def tangentLin (st : State) (v : Nat) (c : Ineq) : Bool :=
  degree st.M c.lhs v ≤ 1 && degree st.M c.rhs v ≤ 1 &&
  (!(degree st.M c.lhs v == 1) || isVal st.M (factor1 c.lhs v).1) &&
  (!(degree st.M c.rhs v == 1) || isVal st.M (factor1 c.rhs v).1)

/-- saturation::try_tangent. -/
def tryTangent (st : State) (v : Nat) (c : Ineq) : Option Emitted :=
  if !(scContainsVar st.M c.src v) then none
  else if isVal st.M c.lhs || isVal st.M c.rhs then none
  else if tangentLin st v c then none
  else if !(isCurrentlyFalse st c.src) then none
  else
    match tryEvalP st c.lhs, tryEvalP st c.rhs with
    | some lval, some rval =>
      if c.strict then
        if bval st (scUle (pconst lval) c.lhs) == some false then none
        else
          (addConflict1 st c (scUlt (pconst rval) c.rhs)
            [(true, scNeg (scUle (pconst lval) c.lhs))]).map
            (fun cl => ⟨.tangent, .confl, cl⟩)
      else
        if bval st (scUle c.rhs (pconst rval)) == some false then none
        else
          (addConflict1 st c (scUle c.lhs (pconst rval))
            [(true, scNeg (scUle c.rhs (pconst rval)))]).map
            (fun cl => ⟨.tangent, .confl, cl⟩)
    | _, _ => none

/-- saturation::perform(v, c, core): skip non-≤ constraints and constraints
currently true; otherwise attempt the rules in the fixed source order,
stopping at the first that fires. -/
def performC (st : State) (v : Nat) (c : SC) : Option Emitted :=
  if !(isUleSC c) then none
  else if isCurrentlyTrue st c then none
  else
    let i := fromUle c
    tryMulBounds st v i <|> tryParity st v i <|> tryFactorEquality st v i <|>
    tryUgtX st v i <|> tryUgtY st v i <|> tryUgtZ st v i <|>
    tryYlAxXlZ st v i <|> tryTangent st v i

/-- saturation::perform(v, core): iterate over the conflict, stopping at
the first constraint for which a rule fires. -/
def perform (st : State) (v : Nat) (core : List SC) : Option Emitted :=
  core.findSome? (performC st v)

/-!  Rule table used to state the dispatch property of perform. -/

/-- The fixed rule order of saturation::perform(v, c, core). -/
def ruleOrder : List RName :=
  [.mulBounds, .parityRule, .factorEq, .ugtX, .ugtY, .ugtZ, .ylAxXlZ, .tangent]

/-- Dispatch table from rule names to rule implementations. -/
def runRule (st : State) (v : Nat) (i : Ineq) : RName → Option Emitted
  | .mulBounds => tryMulBounds st v i
  | .parityRule => tryParity st v i
  | .factorEq => tryFactorEquality st v i
  | .ugtX => tryUgtX st v i
  | .ugtY => tryUgtY st v i
  | .ugtZ => tryUgtZ st v i
  | .ylAxXlZ => tryYlAxXlZ st v i
  | .tangent => tryTangent st v i
  | .mulEq1 => tryMulEq1 st v i

/-- First rule of the given list that fires, with its lemma. -/
def firstRule (st : State) (v : Nat) (i : Ineq) : List RName → Option (RName × Emitted)
  | [] => none
  | r :: rs =>
    match runRule st v i r with
    | some e => some (r, e)
    | none => firstRule st v i rs

/-!  Total semantics of clauses, used to state soundness (tautology in the
theory of modular bit-vectors of width K). -/

/-- Truth value of a signed constraint under a total assignment of the
variables (values are reduced modulo Mv by evalPoly). -/
def scHolds (Mv : Nat) (σ : Nat → Nat) (c : SC) : Bool :=
  (match c.atom with
   | .ule p q => decide (evalPoly Mv σ p ≤ evalPoly Mv σ q)
   | .umulOvfl p q => decide (Mv ≤ evalPoly Mv σ p * evalPoly Mv σ q)
   | .parity p k => evalPoly Mv σ p % 2 ^ k == 0) == c.sign

/-- A clause is a tautology of the theory of modular bit-vectors of width K
(Mv = 2^K) iff some literal holds under every assignment. -/
def IsTautology (Mv : Nat) (cl : List SC) : Prop :=
  ∀ σ : Nat → Nat, ∃ c ∈ cl, scHolds Mv σ c = true

/-- Set equality (up to PDD equality) of the argument pair of a trail
overflow literal with the queried pair, as described by the specification
of is_non_overflow. -/
def pairSetEqB (Mv : Nat) (p q x y : Pol) : Bool :=
  (peqB Mv p x || peqB Mv p y) && (peqB Mv q x || peqB Mv q y) &&
  (peqB Mv x p || peqB Mv x q) && (peqB Mv y p || peqB Mv y q)

/-- A trail witness for is_non_overflow(x, y, c): an unresolved boolean
trail entry whose literal is a negated umul_ovfl(p, q) with x among {p, q}
and y among {p, q}. -/
def TrailNovflWitness (st : State) (x y : Pol) (c : SC) : Prop :=
  SItem.boolItem c false ∈ st.search ∧ c.sign = false ∧
  ∃ p q, c.atom = PAtom.umulOvfl p q ∧
    (peqB st.M x p = true ∨ peqB st.M x q = true) ∧
    (peqB st.M y p = true ∨ peqB st.M y q = true)

/-- Well-formedness of the trail: every boolean literal on the search
stack is assigned true (its bvalue is l_true). -/
def WFTrail (st : State) : Prop :=
  ∀ c r, SItem.boolItem c r ∈ st.search → bval st c = some true

/-!  Concrete solver states used as test vectors for the claims. -/

/-- C1 scenario: width 4; variables w = 0, y = 1, u = 2; the conflict holds
y*w ≤ u*w (currently false under w=2, y=3, u=1) and the trail holds the
unresolved strict literal 1 < y (a negated y ≤ 1). -/
def c1c : SC := ⟨.ule [(1, [1, 0])] [(1, [2, 0])], true⟩

/-- Solver state of the C1 scenario. -/
def st1 : State :=
  { K := 4, assign := [(0, 2), (1, 3), (2, 1)],
    search := [.boolItem ⟨.ule [(1, [1])] [(1, [])], false⟩ false],
    batoms := [] }

/-- The clause emitted by perform on the C1 scenario (rule ugt_y):
umul_ovfl(w, y) ∨ (y ≤ 1) ∨ ¬(y*w ≤ u*w) ∨ (u*w < w). -/
def emitted1 : Emitted :=
  ⟨.ugtY, .confl,
   [(true, ⟨.umulOvfl [(1, [0])] [(1, [1])], true⟩),
    (false, ⟨.ule [(1, [1])] [(1, [])], true⟩),
    (false, ⟨.ule [(1, [1, 0])] [(1, [2, 0])], false⟩),
    (true, ⟨.ule [(1, [2, 0])] [(1, [0])], false⟩)]⟩

/-- Assignment falsifying every literal of the C1 clause: w = 0, y = 2,
u = 0. -/
def sigma1 : Nat → Nat := fun v => if v == 1 then 2 else 0

/-- C3 scenario: width 4; variables a = 0, x = 1; the conflict holds
a*x + 15 ≤ 0 (so b is forced -1 and y is forced 0) and the trail holds the
non-overflow literal ¬umul_ovfl(a, x). -/
def c3c : SC := ⟨.ule [(1, [0, 1]), (15, [])] [], true⟩

/-- C3 counterexample state: model a = 3, x = 11 makes the constraint
currently true. -/
def st3 : State :=
  { K := 4, assign := [(0, 3), (1, 11)],
    search := [.boolItem ⟨.umulOvfl [(1, [0])] [(1, [1])], false⟩ false],
    batoms := [] }

/-- C3 amended scenario, first call: model a = 3, x = 5 (constraint
currently false, x = 1 not forced). -/
def st3a : State :=
  { K := 4, assign := [(0, 3), (1, 5)], search := [], batoms := [] }

/-- C3 amended scenario, second call: model a = 3, x = 1 (x = 1 now holds
in the model). -/
def st3b : State :=
  { K := 4, assign := [(0, 3), (1, 1)], search := [], batoms := [] }

/-- Lemma emitted by try_mul_eq_1 on st3a: consequent x = 1. -/
def emitted3a : Emitted :=
  ⟨.mulEq1, .prop,
   [(true, ⟨.ule [(15, []), (1, [])] [], false⟩),
    (true, ⟨.ule [] [], false⟩),
    (true, ⟨.umulOvfl [(1, [0])] [(1, [1])], true⟩),
    (false, ⟨.ule [(1, [0, 1]), (15, [])] [], false⟩),
    (false, ⟨.ule [(1, [1]), (15, [])] [], true⟩)]⟩

/-- Lemma emitted by try_mul_eq_1 on st3b: consequent a = 1. -/
def emitted3b : Emitted :=
  ⟨.mulEq1, .prop,
   [(true, ⟨.ule [(15, []), (1, [])] [], false⟩),
    (true, ⟨.ule [] [], false⟩),
    (true, ⟨.umulOvfl [(1, [0])] [(1, [1])], true⟩),
    (false, ⟨.ule [(1, [0, 1]), (15, [])] [], false⟩),
    (false, ⟨.ule [(1, [0]), (15, [])] [], true⟩)]⟩

/-- C6 scenario: width 4; variables a = 0, x = 1; the conflict holds
a*x ≤ 0; the trail holds the unresolved literal a ≤ 3. -/
def c6c : SC := ⟨.ule [(1, [0, 1])] [], true⟩

/-- C6 state with model a = 3, x = 2 (x ≥ 6 not forced true). -/
def st6 : State :=
  { K := 4, assign := [(0, 3), (1, 2)],
    search := [.boolItem ⟨.ule [(1, [0])] [(3, [])], true⟩ false],
    batoms := [] }

/-- C6 state with model a = 3, x = 12 (x ≥ 6 already true in the model). -/
def st6b : State :=
  { K := 4, assign := [(0, 3), (1, 12)],
    search := [.boolItem ⟨.ule [(1, [0])] [(3, [])], true⟩ false],
    batoms := [] }

/-- Lemma emitted by try_mul_bounds on st6: the single consequent is
x ≥ 6 (6 = ceil(16/3)). -/
def emitted6 : Emitted :=
  ⟨.mulBounds, .prop,
   [(true, ⟨.ule [] [], false⟩),
    (true, ⟨.ule [] [], false⟩),
    (true, ⟨.ule [(1, [1]), (0, [])] [], true⟩),
    (true, ⟨.ule [(1, [0]), (0, [])] [], true⟩),
    (true, ⟨.ule [(1, [0])] [(3, [])], false⟩),
    (false, ⟨.ule [(1, [0, 1])] [], false⟩),
    (false, ⟨.ule [(6, [])] [(1, [1])], true⟩)]⟩

/-- Lemma emitted by try_mul_bounds on st6b: the single consequent is
-x ≥ 6. -/
def emitted6b : Emitted :=
  ⟨.mulBounds, .prop,
   [(true, ⟨.ule [] [], false⟩),
    (true, ⟨.ule [] [], false⟩),
    (true, ⟨.ule [(1, [1]), (0, [])] [], true⟩),
    (true, ⟨.ule [(1, [0]), (0, [])] [], true⟩),
    (true, ⟨.ule [(1, [0])] [(3, [])], false⟩),
    (false, ⟨.ule [(1, [0, 1])] [], false⟩),
    (false, ⟨.ule [(6, [])] [(15, [1])], true⟩)]⟩

/-- C7 scenario: width 4; enquired pair is (P, P) with P = var 0
unassigned; the trail holds the unresolved literal ¬umul_ovfl(P, Q) with
Q = var 1 distinct from P. -/
def d7 : SC := ⟨.umulOvfl [(1, [0])] [(1, [1])], false⟩

/-- Solver state of the C7 scenario. -/
def st7 : State :=
  { K := 4, assign := [], search := [.boolItem d7 false], batoms := [] }

/-- C8 scenario: width 4; variables a = 0, x = 1; the conflict holds
a*x ≤ 0 with a = 3 assigned and x unassigned; the literal x = 0 has bvalue
l_false on the trail but no semantic value. -/
def c8c : SC := ⟨.ule [(1, [0, 1])] [], true⟩

/-- Solver state of the C8 scenario. -/
def st8 : State :=
  { K := 4, assign := [(0, 3)], search := [],
    batoms := [(.ule (psub 16 (pvar 1) (pconst 0)) [], false)] }

/-- Propagation lemma emitted by try_mul_bounds on st8; its third literal
(x = 0, added through insert_eval) has no semantic value in the model. -/
def emitted8 : Emitted :=
  ⟨.mulBounds, .prop,
   [(true, ⟨.ule [] [], false⟩),
    (true, ⟨.ule [] [], false⟩),
    (true, ⟨.ule [(1, [1]), (0, [])] [], true⟩),
    (true, ⟨.ule [(1, [0]), (0, [])] [], true⟩),
    (false, ⟨.ule [(1, [0, 1])] [], false⟩),
    (false, ⟨.umulOvfl [(1, [0])] [(1, [1])], true⟩)]⟩

/-!  The e-graph slice adapter (polysat_egraph.cpp).  The euf bv-plugin
traversals sub_slices and super_slices are collaborators: a state of the
adapter carries, for each e-node, the list of (e-node, offset) pairs the
plugin presents to the visitor, in presentation order; per the interface
description a visitor returning false stops the traversal. -/

/-- State of the e-graph adapter. -/
structure EG where
  K : Nat
  thVar : Nat → Option Nat
  classOf : Nat → List Nat
  var2pdd : Nat → Pol
  pddvar2var : Nat → Nat
  var2enode : Nat → Nat
  subSlices : Nat → List (Nat × Nat)
  superSlices : Nat → List (Nat × Nat)

/-- Body of the consume_slice visitor shared by the slice queries: walk the
equivalence class of the presented node; for each sibling with a theory
variable w not seen before, mark w seen and, when its pdd is a variable,
push (w, pvar, offset); returns the new seen set and the pushed triples. -/
def consumeClass (g : EG) (off : Nat) : List Nat → List Nat → List Nat × List (Nat × Nat × Nat)
  | [], seen => (seen, [])
  | sib :: sibs, seen =>
    match g.thVar sib with
    | none => consumeClass g off sibs seen
    | some w =>
      if w ∈ seen then consumeClass g off sibs seen
      else
        match isVarD (2 ^ g.K) (g.var2pdd w) with
        | some pv => ((consumeClass g off sibs (w :: seen)).1,
                      (w, pv, off) :: (consumeClass g off sibs (w :: seen)).2)
        | none => consumeClass g off sibs (w :: seen)

/-- Traversal of get_bitvector_suffixes: the visitor rejects (returns
false on) any slice presented at a non-zero offset, which stops the
traversal; otherwise it consumes the class and continues. -/
def suffixGo (g : EG) : List (Nat × Nat) → List Nat → List (Nat × Nat × Nat) → List (Nat × Nat × Nat)
  | [], _, out => out
  | (n, off) :: rest, seen, out =>
    if off != 0 then out
    else suffixGo g rest (consumeClass g off (g.classOf n) seen).1
           (out ++ (consumeClass g off (g.classOf n) seen).2)

/-- Traversal of get_bitvector_sub_slices / get_bitvector_super_slices:
the visitor consumes every presented slice at whatever offset. -/
def sliceGo (g : EG) : List (Nat × Nat) → List Nat → List (Nat × Nat × Nat) → List (Nat × Nat × Nat)
  | [], _, out => out
  | (n, off) :: rest, seen, out =>
    sliceGo g rest (consumeClass g off (g.classOf n) seen).1
      (out ++ (consumeClass g off (g.classOf n) seen).2)

/-- solver::get_bitvector_suffixes, instrumented with the theory variable
of each pushed pair. -/
def getSuffixesT (g : EG) (pv : Nat) : List (Nat × Nat × Nat) :=
  suffixGo g (g.subSlices (g.var2enode (g.pddvar2var pv))) [] []

/-- solver::get_bitvector_suffixes: the pushed (pvar, offset) pairs. -/
def getSuffixes (g : EG) (pv : Nat) : List (Nat × Nat) :=
  (getSuffixesT g pv).map (fun t => t.2)

/-- solver::get_bitvector_sub_slices, instrumented. -/
def getSubSlicesT (g : EG) (pv : Nat) : List (Nat × Nat × Nat) :=
  sliceGo g (g.subSlices (g.var2enode (g.pddvar2var pv))) [] []

/-- solver::get_bitvector_super_slices, instrumented. -/
def getSuperSlicesT (g : EG) (pv : Nat) : List (Nat × Nat × Nat) :=
  sliceGo g (g.superSlices (g.var2enode (g.pddvar2var pv))) [] []

/-- Concrete e-graph used to exhibit the offset behaviour of the slice
queries: the e-node of pvar 0 has a sub-slice of itself at offset 0, a
sub-slice at offset 3 whose class carries pvar 2, and a super-slice at
offset 2 whose class carries pvar 3. -/
def g10 : EG :=
  { K := 4,
    thVar := fun n => if n == 10 then some 0 else if n == 11 then some 5
             else if n == 12 then some 6 else none,
    classOf := fun n => [n],
    var2pdd := fun w => if w == 0 then pvar 0 else if w == 5 then pvar 2
               else if w == 6 then pvar 3 else [],
    pddvar2var := fun _ => 0,
    var2enode := fun _ => 10,
    subSlices := fun n => if n == 10 then [(10, 0), (11, 3)] else [],
    superSlices := fun n => if n == 10 then [(12, 2)] else [] }

/-- Variant of st6 whose trail literal also has bvalue l_true, so that the
trail is well-formed. -/
def st6w : State :=
  { K := 4, assign := [(0, 3), (1, 2)],
    search := [.boolItem ⟨.ule [(1, [0])] [(3, [])], true⟩ false],
    batoms := [(.ule [(1, [0])] [(3, [])], true)] }

/-!  Helper lemmas: lists, options, multisets. -/

theorem findSomeEx {α β : Type} (f : α → Option β) (l : List α) (b : β)
    (h : l.findSome? f = some b) : ∃ a ∈ l, f a = some b := by
  induction l with
  | nil => simp [List.findSome?] at h
  | cons a l ih =>
    rw [List.findSome?] at h
    cases hfa : f a with
    | some c => rw [hfa] at h; exact ⟨a, List.mem_cons_self a l, by simp at h; rw [hfa, h]⟩
    | none =>
      rw [hfa] at h
      obtain ⟨a2, ha2, hfa2⟩ := ih h
      exact ⟨a2, List.mem_cons_of_mem a ha2, hfa2⟩

theorem findSomeNone {α β : Type} (f : α → Option β) (l : List α)
    (h : l.findSome? f = none) : ∀ a ∈ l, f a = none := by
  induction l with
  | nil => simp
  | cons a l ih =>
    rw [List.findSome?] at h
    cases hfa : f a with
    | some c => rw [hfa] at h; exact absurd h (by simp)
    | none =>
      rw [hfa] at h
      intro a2 ha2
      rcases List.mem_cons.mp ha2 with h1 | h2
      · exact h1 ▸ hfa
      · exact ih h a2 h2

/-!  Helper lemmas: semantics of the polynomial model. -/

theorem czM_cast (Mv : Nat) (p : Pol) (m : Multiset Nat) :
    czM Mv p m = ((rawCoeff p m : Nat) : ZMod Mv) := by
  induction p with
  | nil => simp [czM, rawCoeff]
  | cons t p ih =>
    simp only [czM, rawCoeff, List.foldr] at ih ⊢
    split
    · rw [ih]; push_cast; ring
    · exact ih

theorem czM_cast_coeff (Mv : Nat) (p : Pol) (m : Multiset Nat) :
    ((coeff Mv p m : Nat) : ZMod Mv) = czM Mv p m := by
  rw [czM_cast, coeff, ZMod.natCast_mod]

theorem coeff_eq_iff_czM (Mv : Nat) (p q : Pol) (m : Multiset Nat) :
    coeff Mv p m = coeff Mv q m ↔ czM Mv p m = czM Mv q m := by
  rw [czM_cast, czM_cast, ZMod.natCast_eq_natCast_iff]
  exact ⟨fun h => h, fun h => h⟩

theorem rawCoeff_zero_of_not_mem (p : Pol) (m : Multiset Nat)
    (h : ∀ t ∈ p, ((t.2 : Multiset Nat) : Multiset Nat) ≠ m) : rawCoeff p m = 0 := by
  induction p with
  | nil => rfl
  | cons t p ih =>
    rw [rawCoeff, List.foldr, if_neg (h t (List.mem_cons_self t p))]
    exact ih (fun u hu => h u (List.mem_cons_of_mem t hu))

theorem peqB_iff (Mv : Nat) (p q : Pol) :
    peqB Mv p q = true ↔ ∀ m, czM Mv p m = czM Mv q m := by
  constructor
  · intro h m
    rw [peqB, List.all_eq_true] at h
    by_cases hm : ∃ t ∈ p ++ q, ((t.2 : Multiset Nat)) = m
    · obtain ⟨t, ht, htm⟩ := hm
      have := h t ht
      rw [beq_iff_eq] at this
      rw [← htm, ← coeff_eq_iff_czM]
      exact this
    · push_neg at hm
      have hp : rawCoeff p m = 0 :=
        rawCoeff_zero_of_not_mem p m (fun t ht => hm t (List.mem_append_left q ht))
      have hq : rawCoeff q m = 0 :=
        rawCoeff_zero_of_not_mem q m (fun t ht => hm t (List.mem_append_right p ht))
      rw [czM_cast, czM_cast, hp, hq]
  · intro h
    rw [peqB, List.all_eq_true]
    intro t _
    rw [beq_iff_eq, coeff_eq_iff_czM]
    exact h t.2

theorem peqB_refl (Mv : Nat) (p : Pol) : peqB Mv p p = true := by
  rw [peqB_iff]; intro m; rfl

theorem peqB_symm (Mv : Nat) (p q : Pol) (h : peqB Mv p q = true) : peqB Mv q p = true := by
  rw [peqB_iff] at h ⊢; exact fun m => (h m).symm

theorem czM_nil (Mv : Nat) (m : Multiset Nat) : czM Mv ([] : Pol) m = 0 := rfl

theorem rawCoeff_append (p q : Pol) (m : Multiset Nat) :
    rawCoeff (p ++ q) m = rawCoeff p m + rawCoeff q m := by
  induction p with
  | nil => simp [rawCoeff]
  | cons t p ih =>
    simp only [rawCoeff, List.cons_append, List.foldr, List.append_eq] at ih ⊢
    split
    · omega
    · exact ih

theorem czM_append (Mv : Nat) (p q : Pol) (m : Multiset Nat) :
    czM Mv (p ++ q) m = czM Mv p m + czM Mv q m := by
  rw [czM_cast, czM_cast, czM_cast, rawCoeff_append]
  push_cast
  ring

theorem atomEquiv_refl (Mv : Nat) (a : PAtom) : atomEquiv Mv a a = true := by
  cases a <;> simp [atomEquiv, peqB_refl]

theorem scEquiv_refl (Mv : Nat) (c : SC) : scEquiv Mv c c = true := by
  simp [scEquiv, atomEquiv_refl]

theorem msAddSingleton (s m : Multiset Nat) (v : Nat) :
    s + {v} = m ↔ v ∈ m ∧ s = m.erase v := by
  constructor
  · intro h
    subst h
    refine ⟨by simp, ?_⟩
    rw [add_comm, Multiset.singleton_add, Multiset.erase_cons_head]
  · rintro ⟨hv, rfl⟩
    rw [add_comm, Multiset.singleton_add, Multiset.cons_erase hv]

theorem msAddEq (a b m : Multiset Nat) : a + b = m ↔ a ≤ m ∧ b = m - a := by
  constructor
  · intro h
    subst h
    exact ⟨Multiset.le_add_right a b, (add_tsub_cancel_left a b).symm⟩
  · rintro ⟨h, rfl⟩
    exact add_tsub_cancel_of_le h

theorem czM_cons (Mv : Nat) (t : Nat × Monom) (p : Pol) (m : Multiset Nat) :
    czM Mv (t :: p) m =
      (if (t.2 : Multiset Nat) = m then (t.1 : ZMod Mv) else 0) + czM Mv p m := by
  simp only [czM, List.foldr]
  split
  · ring
  · rw [zero_add]

theorem czM_eq_sum (Mv : Nat) (p : Pol) (m : Multiset Nat) :
    czM Mv p m =
      (p.map (fun u => if (u.2 : Multiset Nat) = m then (u.1 : ZMod Mv) else 0)).sum := by
  induction p with
  | nil => rfl
  | cons t p ih => rw [czM_cons, List.map_cons, List.sum_cons, ih]

theorem pmul_cons (u : Nat × Monom) (p q : Pol) :
    pmul (u :: p) q = (q.map (fun t => (u.1 * t.1, u.2 ++ t.2))) ++ pmul p q := rfl

theorem czM_mulTermList (Mv : Nat) (u : Nat × Monom) (q : Pol) (m : Multiset Nat) :
    czM Mv (q.map (fun t => (u.1 * t.1, u.2 ++ t.2))) m =
      (u.1 : ZMod Mv) * (if (u.2 : Multiset Nat) ≤ m then czM Mv q (m - (u.2 : Multiset Nat)) else 0) := by
  induction q with
  | nil =>
    simp only [List.map_nil, czM_nil]
    split <;> simp
  | cons t q ih =>
    rw [List.map_cons, czM_cons, ih]
    have hC : (((u.2 ++ t.2 : Monom) : Multiset Nat) = m) ↔
        ((u.2 : Multiset Nat) ≤ m ∧ (t.2 : Multiset Nat) = m - (u.2 : Multiset Nat)) := by
      rw [← Multiset.coe_add]
      exact msAddEq _ _ _
    by_cases hle : (u.2 : Multiset Nat) ≤ m
    · rw [if_pos hle, if_pos hle, czM_cons]
      by_cases ht : (t.2 : Multiset Nat) = m - (u.2 : Multiset Nat)
      · rw [if_pos (hC.mpr ⟨hle, ht⟩), if_pos ht]
        push_cast
        ring
      · rw [if_neg (fun h => ht (hC.mp h).2), if_neg ht]
        ring
    · rw [if_neg hle, if_neg hle, if_neg (fun h => hle (hC.mp h).1)]
      ring

theorem czM_pmul (Mv : Nat) (p q : Pol) (m : Multiset Nat) :
    czM Mv (pmul p q) m =
      (p.map (fun u => (u.1 : ZMod Mv) *
        (if (u.2 : Multiset Nat) ≤ m then czM Mv q (m - (u.2 : Multiset Nat)) else 0))).sum := by
  induction p with
  | nil => rfl
  | cons u p ih =>
    rw [pmul_cons, czM_append, czM_mulTermList, List.map_cons, List.sum_cons, ih]

theorem czM_pmul_unaryR (Mv : Nat) (z x : Pol) (w cc : Nat)
    (hx : ∀ n : Multiset Nat, czM Mv x n = if n = ({w} : Multiset Nat) then ((cc : Nat) : ZMod Mv) else 0)
    (m : Multiset Nat) :
    czM Mv (pmul z x) m = if w ∈ m then (cc : ZMod Mv) * czM Mv z (m.erase w) else 0 := by
  rw [czM_pmul]
  by_cases hv : w ∈ m
  · rw [if_pos hv]
    have hsplit : m.erase w + {w} = m := by
      rw [msAddSingleton]; exact ⟨hv, rfl⟩
    have hcongr : ∀ u ∈ z,
        (u.1 : ZMod Mv) * (if (u.2 : Multiset Nat) ≤ m then czM Mv x (m - (u.2 : Multiset Nat)) else 0) =
        (cc : ZMod Mv) * (if (u.2 : Multiset Nat) = m.erase w then (u.1 : ZMod Mv) else 0) := by
      intro u _
      by_cases hu : (u.2 : Multiset Nat) = m.erase w
      · have hle : (u.2 : Multiset Nat) ≤ m := hu ▸ (m.erase_le w)
        have hdiff : m - (u.2 : Multiset Nat) = {w} := by
          have := (msAddEq (u.2 : Multiset Nat) {w} m).mp (by rw [hu]; exact hsplit)
          exact this.2.symm
        rw [if_pos hle, hx, if_pos hdiff, if_pos hu]
        ring
      · rw [if_neg hu]
        by_cases hle : (u.2 : Multiset Nat) ≤ m
        · rw [if_pos hle, hx]
          have hne : m - (u.2 : Multiset Nat) ≠ {w} := by
            intro hEq
            have hadd : (u.2 : Multiset Nat) + {w} = m :=
              (msAddEq (u.2 : Multiset Nat) {w} m).mpr ⟨hle, hEq.symm⟩
            exact hu ((msAddSingleton (u.2 : Multiset Nat) m w).mp hadd).2
          rw [if_neg hne]
          ring
        · rw [if_neg hle]
          ring
    rw [List.map_congr_left hcongr, List.sum_map_mul_left, ← czM_eq_sum]
  · rw [if_neg hv]
    have hcongr : ∀ u ∈ z,
        (u.1 : ZMod Mv) * (if (u.2 : Multiset Nat) ≤ m then czM Mv x (m - (u.2 : Multiset Nat)) else 0) =
        (0 : ZMod Mv) := by
      intro u _
      by_cases hle : (u.2 : Multiset Nat) ≤ m
      · rw [if_pos hle, hx]
        have hne : m - (u.2 : Multiset Nat) ≠ {w} := by
          intro hEq
          have hadd : (u.2 : Multiset Nat) + {w} = m :=
            (msAddEq (u.2 : Multiset Nat) {w} m).mpr ⟨hle, hEq.symm⟩
          exact hv ((msAddSingleton (u.2 : Multiset Nat) m w).mp hadd).1
        rw [if_neg hne]
        ring
      · rw [if_neg hle]
        ring
    rw [List.map_congr_left hcongr]
    simp

theorem czM_pvar_single (Mv : Nat) (v : Nat) (n : Multiset Nat) :
    czM Mv (pvar v) n = if n = ({v} : Multiset Nat) then ((1 : Nat) : ZMod Mv) else 0 := by
  rw [pvar, czM_cons, czM_nil, add_zero]
  simp only [Multiset.coe_singleton]
  by_cases h : n = ({v} : Multiset Nat)
  · rw [if_pos h.symm, if_pos h]
  · rw [if_neg (fun hh => h hh.symm), if_neg h]

theorem czM_pmul_pvar (Mv : Nat) (p : Pol) (v : Nat) (m : Multiset Nat) :
    czM Mv (pmul p (pvar v)) m = if v ∈ m then czM Mv p (m.erase v) else 0 := by
  rw [czM_pmul_unaryR Mv p (pvar v) v 1 (czM_pvar_single Mv v) m]
  split <;> simp

theorem czM_pvar_pmul (Mv : Nat) (v : Nat) (p : Pol) (m : Multiset Nat) :
    czM Mv (pmul (pvar v) p) m = if v ∈ m then czM Mv p (m.erase v) else 0 := by
  have h1 : pmul (pvar v) p = (p.map (fun t => (1 * t.1, [v] ++ t.2))) ++ [] := rfl
  rw [h1, czM_append, czM_nil, add_zero]
  have h2 := czM_mulTermList Mv (1, [v]) p m
  simp only at h2
  rw [h2]
  simp only [Multiset.coe_singleton, Nat.cast_one, one_mul]
  by_cases h : v ∈ m
  · rw [if_pos (Multiset.singleton_le.mpr h), if_pos h, Multiset.sub_singleton]
  · rw [if_neg (fun hh => h (Multiset.singleton_le.mp hh)), if_neg h]

theorem czM_pconst_pmul (Mv : Nat) (c : Nat) (p : Pol) (m : Multiset Nat) :
    czM Mv (pmul (pconst c) p) m = (c : ZMod Mv) * czM Mv p m := by
  have h1 : pmul (pconst c) p = (p.map (fun t => (c * t.1, [] ++ t.2))) ++ [] := rfl
  rw [h1, czM_append, czM_nil, add_zero]
  have h2 := czM_mulTermList Mv (c, []) p m
  simp only at h2
  rw [h2]
  simp

theorem czM_factorA (Mv : Nat) (p : Pol) (v : Nat) (n : Multiset Nat) :
    czM Mv (factor1 p v).1 n = czM Mv p (n + {v}) := by
  induction p with
  | nil => rfl
  | cons t p ih =>
    simp only [factor1, List.filterMap_cons] at ih ⊢
    by_cases htv : v ∈ t.2
    · rw [if_pos htv]
      simp only [czM_cons]
      rw [ih]
      have hcond : ((t.2.erase v : Monom) : Multiset Nat) = n ↔ (t.2 : Multiset Nat) = n + {v} := by
        rw [← Multiset.coe_erase]
        constructor
        · intro h
          rw [← h, eq_comm, msAddSingleton]
          exact ⟨htv, rfl⟩
        · intro h
          have := (msAddSingleton n (t.2 : Multiset Nat) v).mp h.symm
          rw [this.2]
      by_cases hh : ((t.2.erase v : Monom) : Multiset Nat) = n
      · rw [if_pos hh, if_pos (hcond.mp hh)]
      · rw [if_neg hh, if_neg (fun h2 => hh (hcond.mpr h2))]
    · rw [if_neg htv]
      rw [czM_cons, ih]
      have hne : ¬ ((t.2 : Multiset Nat) = n + {v}) := by
        intro h
        exact htv (by
          have : v ∈ (t.2 : Multiset Nat) := by rw [h]; simp
          simpa using this)
      rw [if_neg hne, zero_add]

theorem czM_factorB (Mv : Nat) (p : Pol) (v : Nat) (m : Multiset Nat) :
    czM Mv (factor1 p v).2 m = if v ∈ m then 0 else czM Mv p m := by
  induction p with
  | nil => simp [factor1, czM_nil]
  | cons t p ih =>
    simp only [factor1, List.filter_cons] at ih ⊢
    by_cases htv : v ∈ t.2
    · have : (!(v ∈ t.2 : Bool)) = false := by simp [htv]
      rw [this]
      simp only [if_false, Bool.false_eq_true, ite_false] at *
      rw [ih, czM_cons]
      by_cases hm : v ∈ m
      · rw [if_pos hm, if_pos hm]
      · rw [if_neg hm, if_neg hm]
        have hne : ¬ ((t.2 : Multiset Nat) = m) := by
          intro h
          exact hm (by rw [← h]; simpa using htv)
        rw [if_neg hne, zero_add]
    · have : (!(v ∈ t.2 : Bool)) = true := by simp [htv]
      rw [this]
      simp only [if_true] at *
      rw [czM_cons, czM_cons, ih]
      by_cases hm : v ∈ m
      · rw [if_pos hm, if_pos hm]
        have hne : ¬ ((t.2 : Multiset Nat) = m) := by
          intro h
          exact htv (by
            have : v ∈ (t.2 : Multiset Nat) := by rw [h]; exact hm
            simpa using this)
        rw [if_neg hne, zero_add]
      · rw [if_neg hm, if_neg hm]

theorem czM_factor (Mv : Nat) (p : Pol) (v : Nat) (m : Multiset Nat) :
    czM Mv p m = czM Mv (padd (pmul (factor1 p v).1 (pvar v)) (factor1 p v).2) m := by
  rw [padd, czM_append, czM_pmul_pvar, czM_factorB]
  by_cases hm : v ∈ m
  · rw [if_pos hm, if_pos hm, add_zero, czM_factorA]
    have : m.erase v + {v} = m := (msAddSingleton (m.erase v) m v).mpr ⟨hm, rfl⟩
    rw [this]
  · rw [if_neg hm, if_neg hm, zero_add]

theorem factorEx_sem (Mv : Nat) (p : Pol) (v : Nat) (a : Pol)
    (h : factorEx Mv p v = some a) :
    ∀ m, czM Mv p m = czM Mv (pmul a (pvar v)) m := by
  rw [factorEx] at h
  split at h
  case isTrue hB =>
    intro m
    have hB2 : czM Mv (factor1 p v).2 m = 0 := by
      rw [(peqB_iff Mv _ _).mp hB m, czM_nil]
    have := czM_factor Mv p v m
    rw [padd, czM_append, hB2, add_zero] at this
    rw [this]
    have ha : a = (factor1 p v).1 := by
      injection h with h2
      exact h2.symm
    rw [ha]
  case isFalse => exact absurd h (by simp)

theorem isXY_sem (Mv : Nat) (x : Nat) (xy y : Pol) (h : isXY Mv x xy = some y) :
    ∀ m, czM Mv xy m = czM Mv (pmul y (pvar x)) m := by
  rw [isXY] at h
  split at h
  · exact factorEx_sem Mv xy x y h
  · exact absurd h (by simp)

theorem dedupMonoms_mem (l : List Monom) (m : Monom) (h : m ∈ l) :
    ∃ mr ∈ dedupMonoms l, (mr : Multiset Nat) = (m : Multiset Nat) := by
  induction l with
  | nil => cases h
  | cons a l ih =>
    rw [dedupMonoms]
    rcases List.mem_cons.mp h with rfl | hm
    · by_cases hany : (dedupMonoms l).any (fun m2 => decide ((m2 : Multiset Nat) = (m : Multiset Nat))) = true
      · simp only [hany, if_true]
        obtain ⟨mr, hmr, hdec⟩ := List.any_eq_true.mp hany
        exact ⟨mr, hmr, of_decide_eq_true hdec⟩
      · simp only [hany, if_false]
        exact ⟨m, List.mem_cons_self m _, rfl⟩
    · obtain ⟨mr, hmr, heq⟩ := ih hm
      by_cases hany : (dedupMonoms l).any (fun m2 => decide ((m2 : Multiset Nat) = (a : Multiset Nat))) = true
      · simp only [hany, if_true]
        exact ⟨mr, hmr, heq⟩
      · simp only [hany, if_false]
        exact ⟨mr, List.mem_cons_of_mem a hmr, heq⟩

theorem dedupMonoms_pairwise (l : List Monom) :
    (dedupMonoms l).Pairwise (fun (a b : Monom) => ¬((a : Multiset Nat) = (b : Multiset Nat))) := by
  induction l with
  | nil => exact List.Pairwise.nil
  | cons a l ih =>
    rw [dedupMonoms]
    by_cases hany : (dedupMonoms l).any (fun m2 => decide ((m2 : Multiset Nat) = (a : Multiset Nat))) = true
    · simp only [hany, if_true]
      exact ih
    · simp only [hany, if_false]
      refine List.Pairwise.cons ?_ ih
      intro b hb hab
      have hx : (dedupMonoms l).any
          (fun m2 => decide ((m2 : Multiset Nat) = (a : Multiset Nat))) = true :=
        List.any_eq_true.mpr ⟨b, hb, by exact decide_eq_true hab.symm⟩
      exact hany hx

theorem supportL_sound (Mv : Nat) (p : Pol) (mr : Monom) (h : mr ∈ supportL Mv p) :
    coeff Mv p (mr : Multiset Nat) ≠ 0 := by
  rw [supportL, List.mem_filter] at h
  simpa using h.2

theorem supportL_complete (Mv : Nat) (p : Pol) (m : Multiset Nat)
    (h : coeff Mv p m ≠ 0) : ∃ mr ∈ supportL Mv p, (mr : Multiset Nat) = m := by
  have hraw : rawCoeff p m ≠ 0 := by
    intro h0
    exact h (by rw [coeff, h0, Nat.zero_mod])
  have hex : ∃ t ∈ p, (t.2 : Multiset Nat) = m := by
    by_contra hno
    push_neg at hno
    exact hraw (rawCoeff_zero_of_not_mem p m hno)
  obtain ⟨t, ht, htm⟩ := hex
  obtain ⟨mr, hmr, heq⟩ := dedupMonoms_mem (p.map (·.2)) t.2 (List.mem_map_of_mem _ ht)
  refine ⟨mr, ?_, heq.trans htm⟩
  rw [supportL, List.mem_filter]
  refine ⟨hmr, ?_⟩
  simp only [bne_iff_ne, ne_eq, decide_not]
  have : coeff Mv p (mr : Multiset Nat) = coeff Mv p m := by rw [heq.trans htm]
  simp [this, h]

theorem supportL_pairwise (Mv : Nat) (p : Pol) :
    (supportL Mv p).Pairwise (fun (a b : Monom) => ¬((a : Multiset Nat) = (b : Multiset Nat))) :=
  List.Pairwise.filter _ (dedupMonoms_pairwise (p.map (·.2)))

theorem tryDiv_aux (Mv c : Nat) (p : Pol) (m : Multiset Nat) :
    ∀ L : List Monom,
      L.Pairwise (fun (a b : Monom) => ¬((a : Multiset Nat) = (b : Multiset Nat))) →
      (∀ mr ∈ L, c ∣ coeff Mv p (mr : Multiset Nat)) →
      (c : ZMod Mv) * czM Mv (L.map (fun (mr : Monom) => (coeff Mv p (↑mr) / c, mr))) m =
        if ∃ mr ∈ L, (mr : Multiset Nat) = m then ((coeff Mv p m : Nat) : ZMod Mv) else 0 := by
  intro L
  induction L with
  | nil => intro _ _; simp [czM_nil]
  | cons mr L ih =>
    intro hpw hdvd
    rw [List.map_cons, czM_cons, mul_add]
    have hpw2 := (List.pairwise_cons.mp hpw).2
    have hhd := (List.pairwise_cons.mp hpw).1
    have ihv := ih hpw2 (fun mr2 hm2 => hdvd mr2 (List.mem_cons_of_mem mr hm2))
    by_cases hm : (mr : Multiset Nat) = m
    · have h1 : (c : ZMod Mv) * (if (mr : Multiset Nat) = m then
          ((coeff Mv p (mr : Multiset Nat) / c : Nat) : ZMod Mv) else 0) =
          ((coeff Mv p m : Nat) : ZMod Mv) := by
        rw [if_pos hm]
        have h2 : (c : ZMod Mv) * ((coeff Mv p (mr : Multiset Nat) / c : Nat) : ZMod Mv) =
            ((c * (coeff Mv p (mr : Multiset Nat) / c) : Nat) : ZMod Mv) := by push_cast; ring
        rw [h2, Nat.mul_div_cancel' (hdvd mr (List.mem_cons_self mr L)), hm]
      rw [h1, ihv]
      have hno : ¬ ∃ mr2 ∈ L, (mr2 : Multiset Nat) = m := by
        rintro ⟨mr2, hm2, he2⟩
        exact (hhd mr2 hm2) (hm.trans he2.symm)
      rw [if_neg hno, add_zero, if_pos ⟨mr, List.mem_cons_self mr L, hm⟩]
    · rw [if_neg hm, mul_zero, zero_add, ihv]
      have hiff : (∃ mr2 ∈ L, (mr2 : Multiset Nat) = m) ↔
          (∃ mr2 ∈ mr :: L, (mr2 : Multiset Nat) = m) := by
        constructor
        · rintro ⟨mr2, hm2, he2⟩; exact ⟨mr2, List.mem_cons_of_mem mr hm2, he2⟩
        · rintro ⟨mr2, hm2, he2⟩
          rcases List.mem_cons.mp hm2 with rfl | hm3
          · exact absurd he2 hm
          · exact ⟨mr2, hm3, he2⟩
      by_cases hx : ∃ mr2 ∈ L, (mr2 : Multiset Nat) = m
      · rw [if_pos hx, if_pos (hiff.mp hx)]
      · rw [if_neg hx, if_neg (fun h2 => hx (hiff.mpr h2))]

theorem tryDiv_sem (Mv : Nat) (p : Pol) (c : Nat) (q : Pol)
    (h : tryDiv Mv p c = some q) :
    ∀ m, (c : ZMod Mv) * czM Mv q m = czM Mv p m := by
  rw [tryDiv] at h
  split at h
  case isTrue hg =>
    have hq : q = (supportL Mv p).map (fun (mr : Monom) => (coeff Mv p (↑mr) / c, mr)) := by
      injection h with h2
      exact h2.symm
    have hdvd : ∀ mr ∈ supportL Mv p, c ∣ coeff Mv p (mr : Multiset Nat) := by
      intro mr hmr
      have := (List.all_eq_true.mp (Bool.and_elim_right hg)) mr hmr
      exact Nat.dvd_of_mod_eq_zero (by simpa using this)
    intro m
    rw [hq, tryDiv_aux Mv c p m (supportL Mv p) (supportL_pairwise Mv p) hdvd]
    by_cases hx : ∃ mr ∈ supportL Mv p, (mr : Multiset Nat) = m
    · rw [if_pos hx, czM_cast_coeff]
    · rw [if_neg hx]
      have hz : coeff Mv p m = 0 := by
        by_contra hnz
        exact hx (supportL_complete Mv p m hnz)
      rw [← czM_cast_coeff, hz, Nat.cast_zero]
  case isFalse => exact absurd h (by simp)

theorem isUnaryD_sem (Mv : Nat) (p : Pol) (w cc : Nat)
    (h : isUnaryD Mv p = some (w, cc)) :
    cc ≠ 0 ∧ ∀ n, czM Mv p n = if n = ({w} : Multiset Nat) then ((cc : Nat) : ZMod Mv) else 0 := by
  rw [isUnaryD] at h
  split at h
  case _ w2 heq =>
    injection h with h2
    cases h2
    have hmem : [w] ∈ supportL Mv p := by rw [heq]; exact List.mem_singleton_self _
    have hsound := supportL_sound Mv p [w] hmem
    have hco : ((([w] : Monom)) : Multiset Nat) = ({w} : Multiset Nat) := by simp
    constructor
    · rw [← hco]; exact hsound
    · intro n
      by_cases hn : n = ({w} : Multiset Nat)
      · rw [if_pos hn, czM_cast_coeff, hn, ← hco]
      · rw [if_neg hn]
        have hz : coeff Mv p n = 0 := by
          by_contra hnz
          obtain ⟨mr, hmr, hme⟩ := supportL_complete Mv p n hnz
          rw [heq, List.mem_singleton] at hmr
          subst hmr
          exact hn (hme.symm.trans hco)
        rw [← czM_cast_coeff, hz, Nat.cast_zero]
  case _ => exact absurd h (by simp)

theorem isCoeffxY_sem (Mv : Nat) (x p z : Pol) (h : isCoeffxY Mv x p = some z) :
    ∃ w cc, cc ≠ 0 ∧
      (∀ n, czM Mv x n = if n = ({w} : Multiset Nat) then ((cc : Nat) : ZMod Mv) else 0) ∧
      (∀ m, czM Mv p m = if w ∈ m then (cc : ZMod Mv) * czM Mv z (m.erase w) else 0) := by
  rw [isCoeffxY] at h
  split at h
  case _ => exact absurd h (by simp)
  case _ w cc hu =>
    refine ⟨w, cc, (isUnaryD_sem Mv x w cc hu).1, (isUnaryD_sem Mv x w cc hu).2, ?_⟩
    revert h
    split
    case _ => intro h; exact absurd h (by simp)
    case _ q hdiv =>
      intro h
      intro m
      rw [← tryDiv_sem Mv p cc q hdiv m, factorEx_sem Mv q w z h m, czM_pmul_pvar]
      by_cases hw : w ∈ m
      · rw [if_pos hw, if_pos hw]
      · rw [if_neg hw, if_neg hw, mul_zero]

/-- Claim C9: match round-trip.  Whenever one of the pattern predicates
is_Y_l_Ax, is_Ax_l_Y, is_AxB_l_Y, is_Xy_l_XZ, is_YX_l_zX returns true, the
corresponding verify predicate applied to the same inequality and the
returned bindings returns true. -/
theorem c9_match_round_trip (Mv : Nat) (x : Nat) (i : Ineq) :
    (∀ a y, isYlAx Mv x i = some (a, y) → verifyYlAx Mv x i a y = true) ∧
    (∀ a y, isAxlY Mv x i = some (a, y) → verifyAxlY Mv x i a y = true) ∧
    (∀ a b, isAxBlY Mv x i a b = true → verifyAxBlY Mv x i a b i.rhs = true) ∧
    (∀ x2 z, isXylXZ Mv x i = some (x2, z) → verifyXylXZ Mv x i x2 z = true) ∧
    (∀ x2 y2, isYXlzX Mv x i = some (x2, y2) → verifyYXlzX Mv x i x2 y2 = true) := by
  refine ⟨?_, ?_, ?_, ?_, ?_⟩
  · intro a y h
    rw [isYlAx] at h
    cases hxy : isXY Mv x i.rhs with
    | none => rw [hxy] at h; exact absurd h (by simp)
    | some a2 =>
      rw [hxy] at h
      simp only [Option.bind_eq_bind, Option.some_bind, Option.some.injEq, Prod.mk.injEq] at h
      obtain ⟨rfl, rfl⟩ := h
      rw [verifyYlAx, Bool.and_eq_true]
      exact ⟨peqB_refl Mv i.lhs, (peqB_iff Mv _ _).mpr (isXY_sem Mv x i.rhs a hxy)⟩
  · intro a y h
    rw [isAxlY] at h
    cases hxy : isXY Mv x i.lhs with
    | none => rw [hxy] at h; exact absurd h (by simp)
    | some a2 =>
      rw [hxy] at h
      simp only [Option.bind_eq_bind, Option.some_bind, Option.some.injEq, Prod.mk.injEq] at h
      obtain ⟨rfl, rfl⟩ := h
      rw [verifyAxlY, Bool.and_eq_true]
      exact ⟨peqB_refl Mv i.rhs, (peqB_iff Mv _ _).mpr (isXY_sem Mv x i.lhs a hxy)⟩
  · intro a b h
    rw [isAxBlY, Bool.and_eq_true, Bool.and_eq_true] at h
    obtain ⟨⟨_, ha⟩, hb⟩ := h
    rw [verifyAxBlY, Bool.and_eq_true]
    refine ⟨peqB_refl Mv i.rhs, ?_⟩
    rw [peqB_iff]
    intro m
    rw [czM_factor Mv i.lhs x m, padd, padd, czM_append, czM_append,
        czM_pmul_pvar, czM_pmul_pvar]
    have hA := (peqB_iff Mv _ _).mp ha
    have hB := (peqB_iff Mv _ _).mp hb
    rw [hB m]
    by_cases hx : x ∈ m
    · rw [if_pos hx, if_pos hx, hA]
    · rw [if_neg hx, if_neg hx]
  · intro x2 z h
    rw [isXylXZ] at h
    cases hxy : isXY Mv x i.lhs with
    | none => rw [hxy] at h; exact absurd h (by simp)
    | some x3 =>
      rw [hxy] at h
      cases hcz : isCoeffxY Mv x3 i.rhs with
      | none => simp only [Option.bind_eq_bind, Option.some_bind, hcz] at h; exact absurd h (by simp)
      | some z2 =>
        simp only [Option.bind_eq_bind, Option.some_bind, hcz, Option.some.injEq,
          Prod.mk.injEq] at h
        obtain ⟨rfl, rfl⟩ := h
        obtain ⟨w, cc, _, hx3, hp⟩ := isCoeffxY_sem Mv x2 i.rhs z hcz
        rw [verifyXylXZ, Bool.and_eq_true]
        constructor
        · rw [peqB_iff]
          intro m
          rw [isXY_sem Mv x i.lhs x2 hxy m, czM_pmul_pvar, czM_pvar_pmul]
        · rw [peqB_iff]
          intro m
          rw [hp m, czM_pmul_unaryR Mv z x2 w cc hx3 m]
  · intro x2 y2 h
    rw [isYXlzX] at h
    cases hxy : isXY Mv x i.rhs with
    | none => rw [hxy] at h; exact absurd h (by simp)
    | some x3 =>
      rw [hxy] at h
      cases hcz : isCoeffxY Mv x3 i.lhs with
      | none => simp only [Option.bind_eq_bind, Option.some_bind, hcz] at h; exact absurd h (by simp)
      | some y3 =>
        simp only [Option.bind_eq_bind, Option.some_bind, hcz, Option.some.injEq,
          Prod.mk.injEq] at h
        obtain ⟨rfl, rfl⟩ := h
        obtain ⟨w, cc, _, hx3, hp⟩ := isCoeffxY_sem Mv x2 i.lhs y2 hcz
        rw [verifyYXlzX, Bool.and_eq_true]
        constructor
        · rw [peqB_iff]
          intro m
          rw [hp m, czM_pmul_unaryR Mv y2 x2 w cc hx3 m]
        · rw [peqB_iff]
          intro m
          rw [isXY_sem Mv x i.rhs x2 hxy m, czM_pmul_pvar, czM_pvar_pmul]

/-- Witness for C9: the round-trip at width 4 on concrete inequalities:
2*v5 ≤ 3*v7*v5 (shapes Y ≤ a*x, a*x ≤ Y, a*x + b ≤ Y at x = 7 resp. 5)
and 6*v5*v6 ≤ 2*v6*v7 (shapes y*x ≤ z*x and y*x ≤ v*x). -/
theorem c9_match_round_trip_witness :
    verifyYlAx 16 7 ⟨[(2, [5])], [(3, [7, 5])], false, ⟨.ule [(2, [5])] [(3, [7, 5])], true⟩⟩
      [(3, [5])] [(2, [5])] = true ∧
    verifyAxlY 16 5 ⟨[(2, [5])], [(3, [7, 5])], false, ⟨.ule [(2, [5])] [(3, [7, 5])], true⟩⟩
      [(2, [])] [(3, [7, 5])] = true ∧
    verifyAxBlY 16 5 ⟨[(2, [5])], [(3, [7, 5])], false, ⟨.ule [(2, [5])] [(3, [7, 5])], true⟩⟩
      [(2, [])] [] [(3, [7, 5])] = true ∧
    verifyXylXZ 16 5 ⟨[(1, [5, 6])], [(3, [6, 7])], false, ⟨.ule [(1, [5, 6])] [(3, [6, 7])], true⟩⟩
      [(1, [6])] [(3, [7])] = true ∧
    verifyYXlzX 16 7 ⟨[(6, [5, 6])], [(2, [6, 7])], false, ⟨.ule [(6, [5, 6])] [(2, [6, 7])], true⟩⟩
      [(2, [6])] [(3, [5])] = true :=
  ⟨(c9_match_round_trip 16 7 _).1 [(3, [5])] [(2, [5])] (by decide),
   (c9_match_round_trip 16 5 _).2.1 [(2, [])] [(3, [7, 5])] (by decide),
   (c9_match_round_trip 16 5 _).2.2.1 [(2, [])] [] (by decide),
   (c9_match_round_trip 16 5 _).2.2.2.1 [(1, [6])] [(3, [7])] (by decide),
   (c9_match_round_trip 16 7 _).2.2.2.2 [(2, [6])] [(3, [5])] (by decide)⟩

/-- Claim C1 (code bug): soundness of every emitted lemma fails.  On the
state st1 the rule ugt_y, reached from perform, registers through
conflict.add_lemma the clause umul_ovfl(w,y) ∨ (y ≤ 1) ∨ ¬(y*w ≤ u*w) ∨
(u*w < w), which is not a tautology of the theory of modular bit-vectors
of width 4: the assignment w = 0, y = 2, u = 0 falsifies every literal
(the strict conclusion z'*x < z*x of the documented inference is wrong
when x evaluates to 0). -/
theorem c1_unsound_lemma_emitted :
    perform st1 1 [c1c] = some emitted1 ∧
    ¬ IsTautology (2 ^ 4) (emitted1.clause.map (fun l => l.2)) := by
  constructor
  · decide
  · intro h
    exact absurd (h sigma1) (by decide)

/-- Claim C3 counterexample: a state satisfying every hypothesis of the
claim — the conflict constraint matches [x] a*x + b ≤ y with b forced -1
(is_forced_eq(b, -1)), y forced 0, and Ω*(a, x) available as a trail
literal — on which perform emits no lemma at all (the constraint is
currently true under the spec's own model a = 3, x = 11, and moreover
perform never invokes try_mul_eq_1). -/
theorem c3_counterexample :
    isUleSC c3c = true ∧
    isAxBeq0 st3 1 (fromUle c3c) = some ([(1, [0])], [(15, [])], ([] : Pol)) ∧
    isForcedEq st3 [(15, [])] (2 ^ 4 - 1) = true ∧
    tryEvalP st3 ([] : Pol) = some 0 ∧
    isNonOverflow3 st3 [(1, [0])] (pvar 1) = some d7 ∧
    perform st3 1 [c3c] = none := by
  decide

/-- Claim C3 amended: try_mul_eq_1 is not invoked by perform in this
source; invoked directly on a state where the matched constraint is
currently false, it emits one lemma per call: the consequent x = 1 when
x = 1 is not forced true (state st3a), and the consequent a = 1 on a
later call once x = 1 holds (state st3b); perform itself emits nothing
on either state. -/
theorem c3_mul_eq_1_amended :
    isCurrentlyFalse st3a c3c = true ∧
    isForcedTrue st3a (scEqV 16 (pvar 1) 1) = false ∧
    tryMulEq1 st3a 1 (fromUle c3c) = some emitted3a ∧
    emitted3a.clause.getLast? = some (false, scEqV 16 (pvar 1) 1) ∧
    isForcedTrue st3b (scEqV 16 (pvar 1) 1) = true ∧
    tryMulEq1 st3b 1 (fromUle c3c) = some emitted3b ∧
    emitted3b.clause.getLast? = some (false, scEqV 16 [(1, [0])] 1) ∧
    perform st3a 1 [c3c] = none ∧
    perform st3b 1 [c3c] = none := by
  decide

/-- Claim C6 counterexample: on st6 all trigger conditions of the claim
hold (matched equation a*x = 0 with b, y forced 0, a non-constant, x ≠ 0
and a ≠ 0 forced, unresolved trail literal a ≤ 3 with k_val = 3 ≥ 2,
bound = ceil(16/3) = 6), yet the call propagates only x ≥ 6: the emitted
clause does not contain -x ≥ 6, and perform emits exactly this one
lemma. -/
theorem c6_counterexample :
    isAxBeq0 st6 1 (fromUle c6c) = some ([(1, [0])], [], ([] : Pol)) ∧
    isVal 16 [(1, [0])] = false ∧
    isForcedEq st6 ([] : Pol) 0 = true ∧
    (isForcedDiseq st6 (pvar 1) 0).isSome = true ∧
    (isForcedDiseq st6 [(1, [0])] 0).isSome = true ∧
    st6.search = [.boolItem ⟨.ule [(1, [0])] [(3, [])], true⟩ false] ∧
    peqB 16 (fromUle ⟨.ule [(1, [0])] [(3, [])], true⟩).lhs [(1, [0])] = true ∧
    pval 16 (fromUle ⟨.ule [(1, [0])] [(3, [])], true⟩).rhs = 3 ∧
    perform st6 1 [c6c] = some emitted6 ∧
    emitted6.clause.getLast? = some (false, scUge (pvar 1) 6) ∧
    emitted6.clause.all (fun l => !(scEquiv 16 l.2 (scUge (pneg 16 (pvar 1)) 6))) = true := by
  decide

/-- Claim C6 amended: when the trail literal u ≤⁺ k is found, the call
propagates Y ≥ ceil(2^K / k_val) when that is not already forced true,
and -Y ≥ ceil(2^K / k_val) otherwise — one lemma per call, not both; for
K = 4 and trail literal a ≤ 3 the bound is ceil(16/3) = 6. -/
theorem c6_mul_bounds_amended :
    tryMulBounds st6 1 (fromUle c6c) = some emitted6 ∧
    isForcedTrue st6 (scUge (pvar 1) 6) = false ∧
    emitted6.clause.getLast? = some (false, scUge (pvar 1) 6) ∧
    isForcedTrue st6b (scUge (pvar 1) 6) = true ∧
    tryMulBounds st6b 1 (fromUle c6c) = some emitted6b ∧
    emitted6b.clause.getLast? = some (false, scUge (pneg 16 (pvar 1)) 6) ∧
    (2 ^ 4 + 3 - 1) / 3 = 6 := by
  decide

/-- Claim C7 counterexample: with x = y = P (the variable 0) unassigned
and the trail holding the unresolved literal ¬umul_ovfl(P, Q) with Q a
distinct variable, the semantic check fails and is_non_overflow
nevertheless succeeds, returning that literal — whose argument pair
{P, Q} is not equal to {x, y} = {P} as a set. -/
theorem c7_counterexample :
    isNonOverflow2 st7 (pvar 0) (pvar 0) = false ∧
    st7.search = [.boolItem d7 false] ∧
    isNonOverflow3 st7 (pvar 0) (pvar 0) = some d7 ∧
    pairSetEqB 16 [(1, [0])] [(1, [1])] (pvar 0) (pvar 0) = false := by
  decide

/-- Claim C8 counterexample: a propagation lemma emitted by
try_mul_bounds (reached from perform) whose insert_eval literal x = 0 is
not semantically false in the model — x is unassigned and the literal is
only bvalue-false on the trail. -/
theorem c8_counterexample :
    perform st8 1 [c8c] = some emitted8 ∧
    emitted8.kind = LKind.prop ∧
    (true, scEqV 16 (pvar 1) 0) ∈ emitted8.clause ∧
    emitted8.clause.getLast? = some (false, scUmulOvfl [(1, [0])] (pvar 1)) ∧
    isCurrentlyFalse st8 (scEqV 16 (pvar 1) 0) = false ∧
    isForcedFalse st8 (scEqV 16 (pvar 1) 0) = true := by
  decide

theorem firstRule_split (st : State) (v : Nat) (i : Ineq) :
    ∀ (l : List RName) (r : RName) (e : Emitted), firstRule st v i l = some (r, e) →
      ∃ pre post, l = pre ++ r :: post ∧ runRule st v i r = some e ∧
        ∀ r2 ∈ pre, runRule st v i r2 = none := by
  intro l
  induction l with
  | nil => intro r e h; exact absurd h (by simp [firstRule])
  | cons r0 l ih =>
    intro r e h
    rw [firstRule] at h
    cases hr0 : runRule st v i r0 with
    | some e0 =>
      rw [hr0] at h
      simp only [Option.some.injEq, Prod.mk.injEq] at h
      obtain ⟨rfl, rfl⟩ := h
      exact ⟨[], l, rfl, hr0, by simp⟩
    | none =>
      rw [hr0] at h
      obtain ⟨pre, post, hsplit, hrun, hpre⟩ := ih r e h
      refine ⟨r0 :: pre, post, by rw [hsplit]; rfl, hrun, ?_⟩
      intro r2 hr2
      rcases List.mem_cons.mp hr2 with rfl | hmem
      · exact hr0
      · exact hpre r2 hmem

/-- Claim C2: dispatch behaviour of perform(v, c, core).  When c is not a
≤-constraint or is currently true, perform returns false attempting no
rule; otherwise it equals the first success of exactly the rules
try_mul_bounds, try_parity, try_factor_equality, try_ugt_x, try_ugt_y,
try_ugt_z, try_y_l_ax_and_x_l_z, try_tangent, tried in this order: a rule
fires only after every earlier rule in the order returned false, at most
one rule fires, and no rule outside ruleOrder (in particular not
try_mul_eq_1) is invoked. -/
theorem c2_perform_dispatch (st : State) (v : Nat) (c : SC) :
    (isUleSC c = false → performC st v c = none) ∧
    (isCurrentlyTrue st c = true → performC st v c = none) ∧
    (isUleSC c = true → isCurrentlyTrue st c = false →
      performC st v c = (firstRule st v (fromUle c) ruleOrder).map Prod.snd) ∧
    (RName.mulEq1 ∉ ruleOrder) ∧
    (∀ r e, firstRule st v (fromUle c) ruleOrder = some (r, e) →
      ∃ pre post, ruleOrder = pre ++ r :: post ∧
        runRule st v (fromUle c) r = some e ∧
        ∀ r2 ∈ pre, runRule st v (fromUle c) r2 = none) := by
  refine ⟨?_, ?_, ?_, by decide, fun r e h => firstRule_split st v (fromUle c) ruleOrder r e h⟩
  · intro h
    simp [performC, h]
  · intro h
    rw [performC]
    by_cases hu : isUleSC c
    · simp [hu, h]
    · simp [hu]
  · intro hu hc
    rw [performC]
    simp only [hu, hc, Bool.not_true, Bool.false_eq_true, if_false]
    simp only [ruleOrder, firstRule, runRule]
    cases tryMulBounds st v (fromUle c) with
    | some e => simp
    | none =>
    cases tryParity st v (fromUle c) with
    | some e => simp
    | none =>
    cases hq : tryFactorEquality st v (fromUle c) with
    | some e => simp [tryFactorEquality] at hq
    | none =>
    cases tryUgtX st v (fromUle c) with
    | some e => simp [tryFactorEquality]
    | none =>
    cases tryUgtY st v (fromUle c) with
    | some e => simp [tryFactorEquality]
    | none =>
    cases tryUgtZ st v (fromUle c) with
    | some e => simp [tryFactorEquality]
    | none =>
    cases tryYlAxXlZ st v (fromUle c) with
    | some e => simp [tryFactorEquality]
    | none =>
    cases tryTangent st v (fromUle c) with
    | some e => simp [tryFactorEquality]
    | none => simp [tryFactorEquality]

/-- Witness for C2: on the concrete state st1, a non-≤ constraint is
skipped, and on the conflict constraint of st1 perform equals the
first-success dispatch over the fixed rule order. -/
theorem c2_perform_dispatch_witness :
    performC st1 1 ⟨.umulOvfl [] [], true⟩ = none ∧
    performC st1 1 c1c = (firstRule st1 1 (fromUle c1c) ruleOrder).map Prod.snd :=
  ⟨(c2_perform_dispatch st1 1 ⟨.umulOvfl [] [], true⟩).1 (by decide),
   (c2_perform_dispatch st1 1 c1c).2.2.1 (by decide) (by decide)⟩

theorem propagate_clause (st : State) (crit : Ineq) (c : SC) (l0 cl : List (Bool × SC))
    (h : propagate st crit c l0 = some cl) :
    cl = l0 ++ [(false, scNeg crit.src), (false, c)] ∧ isForcedTrue st c = false := by
  rw [propagate] at h
  split at h
  · exact absurd h (by simp)
  case isFalse hft =>
    refine ⟨by injection h with h2; exact h2.symm, by simpa using hft⟩

theorem addConflict1_clause (st : State) (crit : Ineq) (c : SC) (l0 cl : List (Bool × SC))
    (h : addConflict1 st crit c l0 = some cl) :
    cl = l0 ++ [(false, scNeg crit.src), (true, c)] ∧
    isForcedFalse st c = true ∧ bval st c ≠ some true := by
  rw [addConflict1, addConflict2] at h
  simp only [scEquiv_refl, if_true] at h
  split at h
  · exact absurd h (by simp)
  case isFalse hff =>
    split at h
    · exact absurd h (by simp)
    case isFalse hbv =>
      refine ⟨?_, by simpa using hff, by simpa using hbv⟩
      injection h with h2
      rw [← h2]
      simp

/-- Claim C4: try_ugt_x fires only on inequalities matching
[x] y*x ≤⁺ z*x for the target variable; it skips when the inequality is
non-strict and x is already assigned zero, and when Ω*(x, y) is
unavailable; whenever it fires the emitted clause is
¬(y*x ≤⁺ z*x) ∨ ¬Ω*(x,y) ∨ (x = 0, only in the non-strict case) ∨
(y ≤⁺ z), the conclusion matching the matched strictness. -/
theorem c4_try_ugt_x (st : State) (v : Nat) (i : Ineq) :
    (isXYlXZpair st.M v i = none → tryUgtX st v i = none) ∧
    (i.strict = false → st.val v = some 0 → tryUgtX st v i = none) ∧
    (∀ y z, isXYlXZpair st.M v i = some (y, z) →
      isNonOverflow3 st (pvar v) y = none → tryUgtX st v i = none) ∧
    (∀ y z novfl e, isXYlXZpair st.M v i = some (y, z) →
      isNonOverflow3 st (pvar v) y = some novfl →
      tryUgtX st v i = some e →
      e = ⟨.ugtX, .confl,
        [(true, scNeg novfl)] ++ (if i.strict then [] else [(true, scEq (pvar v))]) ++
        [(false, scNeg i.src), (true, mkIneq i.strict y z)]⟩) := by
  refine ⟨?_, ?_, ?_, ?_⟩
  · intro h
    simp [tryUgtX, h]
  · intro hs hv
    rw [tryUgtX]
    cases hm : isXYlXZpair st.M v i with
    | none => rfl
    | some yz =>
      simp [hs, hv]
  · intro y z hm hn
    rw [tryUgtX, hm]
    by_cases hg : (!i.strict && (st.val v == some 0)) = true
    · simp [hg]
    · simp only [hg, Bool.false_eq_true, if_false, hn]
  · intro y z novfl e hm hn h
    simp only [tryUgtX, hm] at h
    by_cases hg : (!i.strict && (st.val v == some 0)) = true
    · rw [if_pos hg] at h
      exact absurd h (by simp)
    · rw [if_neg hg, hn] at h
      simp only [Option.map_eq_some'] at h
      obtain ⟨cl, hcl, he⟩ := h
      obtain ⟨hcl2, _, _⟩ := addConflict1_clause st i (mkIneq i.strict y z) _ cl hcl
      rw [← he, hcl2]
      cases hstr : i.strict
      · simp
      · simp

/-- Witness for C4: on the state with model x = 3, y = 2, z = 1 (variables
0, 1, 2) and conflict constraint y*x ≤ z*x, try_ugt_x fires and the
emitted clause has exactly the shape stated by the claim. -/
theorem c4_try_ugt_x_witness :
    (⟨.ugtX, .confl,
      [(true, ⟨.umulOvfl [(1, [0])] [(1, [1])], true⟩),
       (true, ⟨.ule [(1, [0])] [], true⟩),
       (false, ⟨.ule [(1, [1, 0])] [(1, [2, 0])], false⟩),
       (true, ⟨.ule [(1, [1])] [(1, [2])], true⟩)]⟩ : Emitted) =
    ⟨.ugtX, .confl,
      [(true, scNeg ⟨.umulOvfl [(1, [0])] [(1, [1])], false⟩)] ++
      (if (fromUle ⟨.ule [(1, [1, 0])] [(1, [2, 0])], true⟩).strict then []
       else [(true, scEq (pvar 0))]) ++
      [(false, scNeg (fromUle ⟨.ule [(1, [1, 0])] [(1, [2, 0])], true⟩).src),
       (true, mkIneq (fromUle ⟨.ule [(1, [1, 0])] [(1, [2, 0])], true⟩).strict
         [(1, [1])] [(1, [2])])]⟩ :=
  (c4_try_ugt_x { K := 4, assign := [(0, 3), (1, 2), (2, 1)], search := [], batoms := [] }
    0 (fromUle ⟨.ule [(1, [1, 0])] [(1, [2, 0])], true⟩)).2.2.2
    [(1, [1])] [(1, [2])] ⟨.umulOvfl [(1, [0])] [(1, [1])], false⟩ _
    (by decide) (by decide) (by decide)

theorem fromUle_src (c : SC) : (fromUle c).src = c := by
  obtain ⟨a, s⟩ := c
  cases a with
  | ule p q => cases s <;> rfl
  | umulOvfl p q => rfl
  | parity p k => rfl

theorem tangent_some (st : State) (v : Nat) (c : Ineq) (e : Emitted)
    (h : tryTangent st v c = some e) :
    ∃ lval rval, tryEvalP st c.lhs = some lval ∧ tryEvalP st c.rhs = some rval ∧
      isCurrentlyFalse st c.src = true ∧
      (c.strict = true →
        bval st (scUle (pconst lval) c.lhs) ≠ some false ∧
        e = ⟨.tangent, .confl,
          [(true, scNeg (scUle (pconst lval) c.lhs)), (false, scNeg c.src),
           (true, scUlt (pconst rval) c.rhs)]⟩) ∧
      (c.strict = false →
        bval st (scUle c.rhs (pconst rval)) ≠ some false ∧
        e = ⟨.tangent, .confl,
          [(true, scNeg (scUle c.rhs (pconst rval))), (false, scNeg c.src),
           (true, scUle c.lhs (pconst rval))]⟩) := by
  rw [tryTangent] at h
  split at h
  · exact absurd h (by simp)
  split at h
  · exact absurd h (by simp)
  split at h
  · exact absurd h (by simp)
  split at h
  case isTrue hcf => exact absurd h (by simp)
  case isFalse hcf =>
  cases hl : tryEvalP st c.lhs with
  | none => rw [hl] at h; exact absurd h (by simp)
  | some lval =>
  cases hr : tryEvalP st c.rhs with
  | none => rw [hl, hr] at h; exact absurd h (by simp)
  | some rval =>
  rw [hl, hr] at h
  refine ⟨lval, rval, rfl, rfl, by simpa using hcf, ?_, ?_⟩
  · intro hstr
    rw [hstr] at h
    simp only [if_true] at h
    split at h
    case isTrue => exact absurd h (by simp)
    case isFalse hbv =>
      simp only [Option.map_eq_some'] at h
      obtain ⟨cl, hcl, he⟩ := h
      obtain ⟨hcl2, _, _⟩ := addConflict1_clause st c (scUlt (pconst rval) c.rhs) _ cl hcl
      exact ⟨by simpa using hbv, by rw [← he, hcl2]; rfl⟩
  · intro hstr
    rw [hstr] at h
    simp only [Bool.false_eq_true, if_false] at h
    split at h
    case isTrue => exact absurd h (by simp)
    case isFalse hbv =>
      simp only [Option.map_eq_some'] at h
      obtain ⟨cl, hcl, he⟩ := h
      obtain ⟨hcl2, _, _⟩ := addConflict1_clause st c (scUle c.lhs (pconst rval)) _ cl hcl
      exact ⟨by simpa using hbv, by rw [← he, hcl2]; rfl⟩

/-- Claim C5: try_tangent on a matched inequality.  When the side literal
(rhs ≤ r in the non-strict case, ℓ ≤ lhs in the strict case) is already
forced false it returns false emitting nothing; when it emits on a
non-strict inequality with ℓ = eval(lhs), r = eval(rhs) then r < ℓ and the
clause is ¬(rhs ≤ r) ∨ ¬c ∨ (lhs ≤ r); when it emits on a strict
inequality then r ≤ ℓ and the clause is ¬(ℓ ≤ lhs) ∨ ¬c ∨ (r < rhs). -/
theorem c5_try_tangent (st : State) (v : Nat) (c0 : SC) (hu : isUleSC c0 = true) :
    (∀ r, (fromUle c0).strict = false → tryEvalP st (fromUle c0).rhs = some r →
      bval st (scUle (fromUle c0).rhs (pconst r)) = some false →
      tryTangent st v (fromUle c0) = none) ∧
    (∀ l, (fromUle c0).strict = true → tryEvalP st (fromUle c0).lhs = some l →
      bval st (scUle (pconst l) (fromUle c0).lhs) = some false →
      tryTangent st v (fromUle c0) = none) ∧
    (∀ l r e, (fromUle c0).strict = false →
      tryEvalP st (fromUle c0).lhs = some l → tryEvalP st (fromUle c0).rhs = some r →
      tryTangent st v (fromUle c0) = some e →
      r < l ∧ e = ⟨.tangent, .confl,
        [(true, scNeg (scUle (fromUle c0).rhs (pconst r))), (false, scNeg c0),
         (true, scUle (fromUle c0).lhs (pconst r))]⟩) ∧
    (∀ l r e, (fromUle c0).strict = true →
      tryEvalP st (fromUle c0).lhs = some l → tryEvalP st (fromUle c0).rhs = some r →
      tryTangent st v (fromUle c0) = some e →
      r ≤ l ∧ e = ⟨.tangent, .confl,
        [(true, scNeg (scUle (pconst l) (fromUle c0).lhs)), (false, scNeg c0),
         (true, scUlt (pconst r) (fromUle c0).rhs)]⟩) := by
  obtain ⟨a, sgn⟩ := c0
  cases a with
  | umulOvfl p q => exact absurd hu (by simp [isUleSC])
  | parity p k => exact absurd hu (by simp [isUleSC])
  | ule p q =>
  refine ⟨?_, ?_, ?_, ?_⟩
  · intro r hs hr hb
    cases he : tryTangent st v (fromUle ⟨.ule p q, sgn⟩) with
    | none => rfl
    | some e =>
      obtain ⟨lv, rv, hl2, hr2, _, _, hns⟩ := tangent_some st v _ e he
      obtain ⟨hbv, _⟩ := hns hs
      rw [hr2] at hr
      injection hr with hr3
      rw [hr3] at hbv
      exact absurd hb hbv
  · intro l hs hl hb
    cases he : tryTangent st v (fromUle ⟨.ule p q, sgn⟩) with
    | none => rfl
    | some e =>
      obtain ⟨lv, rv, hl2, hr2, _, hss, _⟩ := tangent_some st v _ e he
      obtain ⟨hbv, _⟩ := hss hs
      rw [hl2] at hl
      injection hl with hl3
      rw [hl3] at hbv
      exact absurd hb hbv
  · intro l r e hs hl hr he
    obtain ⟨lv, rv, hl2, hr2, hcf, _, hns⟩ := tangent_some st v _ e he
    rw [hl2] at hl
    rw [hr2] at hr
    injection hl with hl3
    injection hr with hr3
    subst hl3
    subst hr3
    obtain ⟨_, hee⟩ := hns hs
    rw [fromUle_src] at hee
    refine ⟨?_, hee⟩
    cases hsgn : sgn with
    | false => rw [fromUle] at hs; simp [hsgn] at hs
    | true =>
      subst hsgn
      rw [fromUle_src] at hcf
      rw [fromUle] at hl2 hr2
      simp only [if_true] at hl2 hr2
      simp only [isCurrentlyFalse, currVal, evalAtomP, hl2, hr2] at hcf
      simp at hcf
      omega
  · intro l r e hs hl hr he
    obtain ⟨lv, rv, hl2, hr2, hcf, hss, _⟩ := tangent_some st v _ e he
    rw [hl2] at hl
    rw [hr2] at hr
    injection hl with hl3
    injection hr with hr3
    subst hl3
    subst hr3
    obtain ⟨_, hee⟩ := hss hs
    rw [fromUle_src] at hee
    refine ⟨?_, hee⟩
    cases hsgn : sgn with
    | true => rw [fromUle] at hs; simp [hsgn] at hs
    | false =>
      subst hsgn
      rw [fromUle_src] at hcf
      rw [fromUle] at hl2 hr2
      simp only [Bool.false_eq_true, if_false] at hl2 hr2
      simp only [isCurrentlyFalse, currVal, evalAtomP, hl2, hr2] at hcf
      simp at hcf
      omega

/-- Witness for C5: the spec's tangent scenario — inequality x*x ≤ y with
model x = 3, y = 5 (so ℓ = 9 > r = 5): the emitted lemma is
¬(y ≤ 5) ∨ ¬(x*x ≤ y) ∨ (x*x ≤ 5). -/
theorem c5_try_tangent_witness :
    5 < 9 ∧
    (⟨.tangent, .confl,
      [(true, ⟨.ule [(1, [1])] [(5, [])], false⟩),
       (false, ⟨.ule [(1, [0, 0])] [(1, [1])], false⟩),
       (true, ⟨.ule [(1, [0, 0])] [(5, [])], true⟩)]⟩ : Emitted) =
    ⟨.tangent, .confl,
      [(true, scNeg (scUle (fromUle ⟨.ule [(1, [0, 0])] [(1, [1])], true⟩).rhs (pconst 5))),
       (false, scNeg ⟨.ule [(1, [0, 0])] [(1, [1])], true⟩),
       (true, scUle (fromUle ⟨.ule [(1, [0, 0])] [(1, [1])], true⟩).lhs (pconst 5))]⟩ :=
  (c5_try_tangent { K := 4, assign := [(0, 3), (1, 5)], search := [], batoms := [] }
      0 ⟨.ule [(1, [0, 0])] [(1, [1])], true⟩ (by decide)).2.2.1
    9 5 _ (by decide) (by decide) (by decide) (by decide)

/-- Claim C7 amended: is_non_overflow(x, y, c) succeeds with the fresh
literal ¬umul_ovfl(x, y) when the semantic check x_val * y_val < 2^K
passes; failing that, it succeeds exactly when the trail contains an
unresolved boolean entry whose literal is a negated umul_ovfl(p, q) with
x among {p, q} and y among {p, q} (not set equality: for x = y the pair
{p, q} may be strictly larger), returning such a trail literal. -/
theorem c7_is_non_overflow_amended (st : State) (x y : Pol) :
    (isNonOverflow2 st x y = true →
      isNonOverflow3 st x y = some (scNeg (scUmulOvfl x y))) ∧
    (isNonOverflow2 st x y = false → ∀ c, isNonOverflow3 st x y = some c →
      TrailNovflWitness st x y c) ∧
    (isNonOverflow3 st x y = none →
      isNonOverflow2 st x y = false ∧ ∀ c, ¬ TrailNovflWitness st x y c) ∧
    (∀ c, TrailNovflWitness st x y c → isNonOverflow3 st x y ≠ none) := by
  have hstep : ∀ (si : SItem) (c : SC),
      (match si with
       | SItem.boolItem d res =>
         if res then none
         else
           match d.atom, d.sign with
           | PAtom.umulOvfl p q, false =>
             if (peqB st.M x p || peqB st.M x q) && (peqB st.M y p || peqB st.M y q) then
               some d
             else none
           | _, _ => none
       | SItem.varItem _ => none) = some c →
      c.sign = false ∧ (SItem.boolItem c false = si) ∧
      ∃ p q, c.atom = PAtom.umulOvfl p q ∧
        (peqB st.M x p = true ∨ peqB st.M x q = true) ∧
        (peqB st.M y p = true ∨ peqB st.M y q = true) := by
    intro si c h
    cases si with
    | varItem w => exact absurd h (by simp)
    | boolItem d res =>
      cases res with
      | true => exact absurd h (by simp)
      | false =>
        obtain ⟨da, ds⟩ := d
        cases da with
        | ule p q => simp at h
        | parity p k => simp at h
        | umulOvfl p q =>
          cases ds with
          | true => simp at h
          | false =>
            simp only [Bool.false_eq_true, if_false] at h
            split at h
            case isTrue hcond =>
              injection h with h2
              subst h2
              rw [Bool.and_eq_true, Bool.or_eq_true, Bool.or_eq_true] at hcond
              exact ⟨rfl, rfl, p, q, rfl, hcond.1, hcond.2⟩
            case isFalse => exact absurd h (by simp)
  refine ⟨?_, ?_, ?_, ?_⟩
  · intro h
    rw [isNonOverflow3, if_pos h]
  · intro h2 c h
    rw [isNonOverflow3, if_neg (by simp [h2])] at h
    obtain ⟨si, hsi, hfsi⟩ := findSomeEx _ st.search c h
    obtain ⟨hsign, hitem, p, q, hatom, hx, hy⟩ := hstep si c hfsi
    exact ⟨hitem ▸ hsi, hsign, p, q, hatom, hx, hy⟩
  · intro h
    rw [isNonOverflow3] at h
    split at h
    · exact absurd h (by simp)
    case isFalse h2 =>
      refine ⟨by simpa using h2, ?_⟩
      rintro ⟨ca, cs⟩ ⟨hmem, hsign, p, q, hatom, hx, hy⟩
      simp only at hsign hatom
      subst hsign
      subst hatom
      have hnone := findSomeNone _ st.search h _ hmem
      rcases hx with hx | hx <;> rcases hy with hy | hy <;>
        simp [hx, hy] at hnone
  · intro c hw h
    rw [isNonOverflow3] at h
    split at h
    · exact absurd h (by simp)
    case isFalse h2 =>
      obtain ⟨hmem, hsign, p, q, hatom, hx, hy⟩ := hw
      obtain ⟨ca, cs⟩ := c
      simp only at hsign hatom
      subst hsign
      subst hatom
      have hnone := findSomeNone _ st.search h _ hmem
      rcases hx with hx | hx <;> rcases hy with hy | hy <;>
        simp [hx, hy] at hnone

/-- Witness for C7 amended: the semantic branch on a state where
3 * 2 < 16, and the trail branch on st7 where the returned literal
¬umul_ovfl(P, Q) is a trail witness for the pair (P, P). -/
theorem c7_is_non_overflow_amended_witness :
    isNonOverflow3 { K := 4, assign := [(0, 3), (1, 2), (2, 1)], search := [], batoms := [] }
      (pvar 0) [(1, [1])] = some (scNeg (scUmulOvfl (pvar 0) [(1, [1])])) ∧
    TrailNovflWitness st7 (pvar 0) (pvar 0) d7 :=
  ⟨(c7_is_non_overflow_amended
      { K := 4, assign := [(0, 3), (1, 2), (2, 1)], search := [], batoms := [] }
      (pvar 0) [(1, [1])]).1 (by decide),
   (c7_is_non_overflow_amended st7 (pvar 0) (pvar 0)).2.1 (by decide) d7 (by decide)⟩

theorem orElse_some {α : Type} (x y : Option α) (b : α) (h : (x <|> y) = some b) :
    x = some b ∨ y = some b := by
  cases x with
  | some a => left; simpa using h
  | none => right; simpa using h

theorem tryEvalP_nil (st : State) : tryEvalP st ([] : Pol) = some 0 := by
  simp [tryEvalP]

theorem currVal_neg (st : State) (c : SC) :
    currVal st (scNeg c) = (currVal st c).map (fun b => !b) := by
  obtain ⟨a, s⟩ := c
  rw [currVal, currVal, scNeg]
  cases evalAtomP st a with
  | none => rfl
  | some b => cases b <;> cases s <;> rfl

theorem currFalse_neg (st : State) (c : SC) :
    isCurrentlyFalse st (scNeg c) = isCurrentlyTrue st c := by
  rw [isCurrentlyFalse, isCurrentlyTrue, currVal_neg]
  cases currVal st c with
  | none => rfl
  | some b => cases b <;> rfl

theorem ff_of_currFalse (st : State) (c : SC) (h : isCurrentlyFalse st c = true) :
    isForcedFalse st c = true := by
  rw [isForcedFalse, h, Bool.or_true]

theorem ff_neg_of_currTrue (st : State) (c : SC) (h : isCurrentlyTrue st c = true) :
    isForcedFalse st (scNeg c) = true :=
  ff_of_currFalse st (scNeg c) (by rw [currFalse_neg]; exact h)

theorem ff_negEq0 (st : State) (p : Pol) (h : tryEvalP st p = some 0) :
    isForcedFalse st (scNeg (scEq p)) = true := by
  apply ff_neg_of_currTrue
  rw [isCurrentlyTrue, currVal, scEq, evalAtomP, h, tryEvalP_nil]
  rfl

theorem bval_neg_of_true (st : State) (c : SC) (h : bval st c = some true) :
    bval st (scNeg c) = some false := by
  rw [bval] at h ⊢
  rw [scNeg]
  cases hb : st.bvalAtom c.atom with
  | none => rw [hb] at h; exact absurd h (by simp)
  | some b =>
    rw [hb] at h
    simp only [Option.map_some', Option.some.injEq] at h
    simp only [Option.map_some', Option.some.injEq]
    cases b <;> cases hs : c.sign <;> rw [hs] at h <;> simp at h ⊢

theorem ff_neg_of_trail (st : State) (d : SC) (hwf : WFTrail st)
    (hmem : SItem.boolItem d false ∈ st.search) :
    isForcedFalse st (scNeg d) = true := by
  rw [isForcedFalse, bval_neg_of_true st d (hwf d false hmem)]
  simp

theorem scNeg_scNeg (c : SC) : scNeg (scNeg c) = c := by
  obtain ⟨a, s⟩ := c
  cases s <;> rfl

theorem isForcedDiseq_ff (st : State) (p : Pol) (k : Nat) (c : SC)
    (h : isForcedDiseq st p k = some c) : isForcedFalse st c = true := by
  rw [isForcedDiseq] at h
  split at h
  case isTrue hf => injection h with h2; rw [← h2]; exact hf
  case isFalse => exact absurd h (by simp)

theorem isForcedEq_eval (st : State) (p : Pol) (k : Nat) (h : isForcedEq st p k = true) :
    tryEvalP st p = some (k % st.M) := by
  rw [isForcedEq] at h
  exact beq_iff_eq.mp h

theorem propagate_eval_mem (st : State) (crit : Ineq) (c : SC)
    (l0 cl : List (Bool × SC)) (h : propagate st crit c l0 = some cl) :
    ∀ l ∈ cl, l.1 = true → l ∈ l0 := by
  obtain ⟨hcl, _⟩ := propagate_clause st crit c l0 cl h
  intro l hl hflag
  rw [hcl] at hl
  rcases List.mem_append.mp hl with h1 | h2
  · exact h1
  · rcases List.mem_cons.mp h2 with rfl | h3
    · exact absurd hflag (by simp)
    · rcases List.mem_cons.mp h3 with rfl | h4
      · exact absurd hflag (by simp)
      · cases h4

theorem mbBase_ff (st : State) (b y : Pol) (xeq0 aeq0 : SC)
    (hb : tryEvalP st b = some 0) (hy : tryEvalP st y = some 0)
    (hx : isForcedFalse st xeq0 = true) (ha : isForcedFalse st aeq0 = true) :
    ∀ l ∈ mbBase b y xeq0 aeq0, l.1 = true → isForcedFalse st l.2 = true := by
  intro l hl _
  rw [mbBase] at hl
  rcases List.mem_cons.mp hl with rfl | hl
  · exact ff_negEq0 st b hb
  rcases List.mem_cons.mp hl with rfl | hl
  · exact ff_negEq0 st y hy
  rcases List.mem_cons.mp hl with rfl | hl
  · exact hx
  rcases List.mem_cons.mp hl with rfl | hl
  · exact ha
  cases hl

theorem mbTrailStep_ff (st : State) (i : Ineq) (a X : Pol) (base : List (Bool × SC))
    (si : SItem) (cl : List (Bool × SC)) (hwf : WFTrail st) (hmem : si ∈ st.search)
    (hbase : ∀ l ∈ base, l.1 = true → isForcedFalse st l.2 = true)
    (h : mbTrailStep st i a X base si = some cl) :
    ∀ l ∈ cl, l.1 = true → isForcedFalse st l.2 = true := by
  cases si with
  | varItem w => exact absurd h (by simp [mbTrailStep])
  | boolItem d res =>
    rw [mbTrailStep] at h
    split at h
    · exact absurd h (by simp)
    case isFalse hg =>
      have hres : res = false := by
        by_contra hr
        rw [Bool.not_eq_false] at hr
        rw [hr] at hg
        simp at hg
      subst hres
      split at h
      · exact absurd h (by simp)
      split at h
      · exact absurd h (by simp)
      revert h
      split
      · intro h; exact absurd h (by simp)
      case _ Y hY =>
        intro h
        have hext : ∀ l ∈ base ++ [(true, scNeg d)], l.1 = true →
            isForcedFalse st l.2 = true := by
          intro l hl hfl
          rcases List.mem_append.mp hl with h1 | h2
          · exact hbase l h1 hfl
          · rcases List.mem_cons.mp h2 with rfl | h3
            · exact ff_neg_of_trail st d hwf hmem
            · cases h3
        rcases orElse_some _ _ _ h with hp | hp <;>
          exact fun l hl hfl => hext l (propagate_eval_mem st i _ _ cl hp l hl hfl) hfl

theorem mbOvflChain_ff (st : State) (i : Ineq) (a X : Pol) (base cl : List (Bool × SC))
    (hbase : ∀ l ∈ base, l.1 = true → isForcedFalse st l.2 = true)
    (h : mbOvflChain st i a X base = some cl) :
    ∀ l ∈ cl, l.1 = true → isForcedFalse st l.2 = true := by
  rw [mbOvflChain] at h
  rcases orElse_some _ _ _ h with hp | h2
  · exact fun l hl hfl => hbase l (propagate_eval_mem st i _ _ cl hp l hl hfl) hfl
  rcases orElse_some _ _ _ h2 with hp | h3
  · exact fun l hl hfl => hbase l (propagate_eval_mem st i _ _ cl hp l hl hfl) hfl
  rcases orElse_some _ _ _ h3 with hp | hp <;>
    exact fun l hl hfl => hbase l (propagate_eval_mem st i _ _ cl hp l hl hfl) hfl

theorem isAxBeq0_facts (st : State) (x : Nat) (i : Ineq) (a b y : Pol)
    (h : isAxBeq0 st x i = some (a, b, y)) : tryEvalP st y = some 0 := by
  rw [isAxBeq0] at h
  split at h
  case _ heval =>
    split at h
    · injection h with h2
      have : y = i.rhs := by
        have := congrArg (fun t => t.2.2) h2
        simpa using this.symm
      rw [this, heval]
    · exact absurd h (by simp)
  case _ => exact absurd h (by simp)

theorem mulBounds_eval_ff (st : State) (v : Nat) (i : Ineq) (e : Emitted)
    (hwf : WFTrail st) (h : tryMulBounds st v i = some e) :
    ∀ l ∈ e.clause, l.1 = true → isForcedFalse st l.2 = true := by
  rw [tryMulBounds] at h
  revert h
  split
  · intro h; exact absurd h (by simp)
  case _ a b y hax =>
    intro h
    split at h
    · exact absurd h (by simp)
    split at h
    case isTrue => exact absurd h (by simp)
    case isFalse hfe =>
      have hb : tryEvalP st b = some 0 := by
        have := isForcedEq_eval st b 0 (by simpa using hfe)
        rwa [Nat.zero_mod] at this
      have hy := isAxBeq0_facts st v i a b y hax
      revert h
      split
      case _ xeq0 aeq0 hdx hda =>
        have hbase := mbBase_ff st b y xeq0 aeq0 hb hy
          (isForcedDiseq_ff st (pvar v) 0 xeq0 hdx) (isForcedDiseq_ff st a 0 aeq0 hda)
        intro h
        split at h
        case _ cl hfs =>
          injection h with h2
          rw [← h2]
          obtain ⟨si, hsi, hstep⟩ := findSomeEx _ st.search cl hfs
          exact mbTrailStep_ff st i a (pvar v) _ si cl hwf hsi hbase hstep
        case _ hfs =>
          simp only [Option.map_eq_some'] at h
          obtain ⟨cl, hcl, he⟩ := h
          rw [← he]
          exact mbOvflChain_ff st i a (pvar v) _ cl hbase hcl
      case _ h1 h2 =>
        intro h; exact absurd h (by simp)

theorem currTrue_neg (st : State) (c : SC) :
    isCurrentlyTrue st (scNeg c) = isCurrentlyFalse st c := by
  rw [isCurrentlyTrue, isCurrentlyFalse, currVal_neg]
  cases currVal st c with
  | none => rfl
  | some b => cases b <;> rfl

theorem climbP_currTrue (st : State) (p : Pol) : ∀ fuel k,
    (0 < k → isCurrentlyTrue st (scParity p k) = true) →
    0 < climbP st p fuel k → isCurrentlyTrue st (scParity p (climbP st p fuel k)) = true := by
  intro fuel
  induction fuel with
  | zero => intro k hk hpos; exact hk hpos
  | succ n ih =>
    intro k hk hpos
    rw [climbP] at hpos ⊢
    by_cases hg : (k < st.K && isCurrentlyTrue st (scParity p (k + 1))) = true
    · rw [if_pos hg] at hpos ⊢
      exact ih (k + 1) (fun _ => (Bool.and_eq_true _ _).mp hg |>.2) hpos
    · rw [if_neg hg] at hpos ⊢
      exact hk hpos

theorem parityClimb_currTrue (st : State) (p : Pol) (h : 0 < parityClimb st p) :
    isCurrentlyTrue st (scParity p (parityClimb st p)) = true := by
  rw [parityClimb] at h ⊢
  refine climbP_currTrue st p st.K (parityAP0 st p) ?_ h
  intro hpos
  rw [parityAP0] at hpos ⊢
  split at hpos
  case isTrue hodd =>
    rw [if_pos hodd]
    rw [scOdd, currFalse_neg] at hodd
    exact hodd
  case isFalse => exact absurd hpos (by simp)

theorem parityProp1_ff (st : State) (i : Ineq) (y : Pol) (premise conseq : SC)
    (cl : List (Bool × SC)) (hy : tryEvalP st y = some 0)
    (hprem : isForcedFalse st (scNeg premise) = true)
    (h : parityProp1 st i y premise conseq = some cl) :
    ∀ l ∈ cl, l.1 = true → isForcedFalse st l.2 = true := by
  intro l hl hfl
  have hmem := propagate_eval_mem st i conseq _ cl h l hl hfl
  rcases List.mem_cons.mp hmem with rfl | h2
  · exact ff_negEq0 st y hy
  · rcases List.mem_cons.mp h2 with rfl | h3
    · exact hprem
    · cases h3

theorem parityProp2_ff (st : State) (i : Ineq) (y : Pol) (p1 p2 conseq : SC)
    (cl : List (Bool × SC)) (hy : tryEvalP st y = some 0)
    (hp1 : isForcedFalse st (scNeg p1) = true)
    (hp2 : isForcedFalse st (scNeg p2) = true)
    (h : parityProp2 st i y p1 p2 conseq = some cl) :
    ∀ l ∈ cl, l.1 = true → isForcedFalse st l.2 = true := by
  intro l hl hfl
  have hmem := propagate_eval_mem st i conseq _ cl h l hl hfl
  rcases List.mem_cons.mp hmem with rfl | h2
  · exact ff_negEq0 st y hy
  · rcases List.mem_cons.mp h2 with rfl | h3
    · exact hp1
    · rcases List.mem_cons.mp h3 with rfl | h4
      · exact hp2
      · cases h4

theorem parityStep1_ff (st : State) (x : Nat) (i : Ineq) (a b y : Pol)
    (cl : List (Bool × SC)) (hy : tryEvalP st y = some 0)
    (h : parityStep1 st x i a b y = some cl) :
    ∀ l ∈ cl, l.1 = true → isForcedFalse st l.2 = true := by
  rw [parityStep1] at h
  split at h
  case isTrue hg =>
    obtain ⟨hga, hgx⟩ := (Bool.and_eq_true _ _).mp hg
    exact parityProp2_ff st i y _ _ _ cl hy
      (ff_neg_of_currTrue st _ hga) (ff_neg_of_currTrue st _ hgx) h
  case isFalse => exact absurd h (by simp)

theorem parityStep2_ff (st : State) (x : Nat) (i : Ineq) (a b y : Pol)
    (cl : List (Bool × SC)) (hy : tryEvalP st y = some 0)
    (h : parityStep2 st x i a b y = some cl) :
    ∀ l ∈ cl, l.1 = true → isForcedFalse st l.2 = true := by
  rw [parityStep2] at h
  split at h
  case isTrue hg =>
    rcases orElse_some _ _ _ h with hp | hp <;>
      exact parityProp1_ff st i y _ _ cl hy (ff_neg_of_currTrue st _ hg) hp
  case isFalse => exact absurd h (by simp)

theorem parityBlockA_ff (st : State) (x : Nat) (i : Ineq) (a b y : Pol)
    (cl : List (Bool × SC)) (hy : tryEvalP st y = some 0)
    (h : parityBlockA st x i a b y = some cl) :
    ∀ l ∈ cl, l.1 = true → isForcedFalse st l.2 = true := by
  rw [parityBlockA] at h
  split at h
  case isTrue hg =>
    obtain ⟨hga, hgx⟩ := (Bool.and_eq_true _ _).mp hg
    simp only [decide_eq_true_eq] at hga hgx
    exact parityProp2_ff st i y _ _ _ cl hy
      (ff_neg_of_currTrue st _ (parityClimb_currTrue st a hga))
      (ff_neg_of_currTrue st _ (parityClimb_currTrue st (pvar x) hgx)) h
  case isFalse =>
    split at h
    case isTrue hg =>
      obtain ⟨hga, _⟩ := (Bool.and_eq_true _ _).mp hg
      simp only [decide_eq_true_eq] at hga
      exact parityProp1_ff st i y _ _ cl hy
        (ff_neg_of_currTrue st _ (parityClimb_currTrue st a hga)) h
    case isFalse =>
      split at h
      case isTrue hg =>
        obtain ⟨_, hgx⟩ := (Bool.and_eq_true _ _).mp hg
        simp only [decide_eq_true_eq] at hgx
        exact parityProp1_ff st i y _ _ cl hy
          (ff_neg_of_currTrue st _ (parityClimb_currTrue st (pvar x) hgx)) h
      case isFalse => exact absurd h (by simp)

theorem parityBlockB_ff (st : State) (x : Nat) (i : Ineq) (a b y : Pol)
    (cl : List (Bool × SC)) (hy : tryEvalP st y = some 0)
    (h : parityBlockB st x i a b y = some cl) :
    ∀ l ∈ cl, l.1 = true → isForcedFalse st l.2 = true := by
  rw [parityBlockB] at h
  revert h
  split
  · intro h; exact absurd h (by simp)
  case _ bp hbp =>
    intro h
    have hbF : isCurrentlyFalse st (scParity b bp) = true := by
      have := List.find?_some hbp
      simpa using this
    have hbff : isForcedFalse st (scNeg (scNeg (scParity b bp))) = true := by
      rw [scNeg_scNeg]
      exact ff_of_currFalse st _ hbF
    rcases orElse_some _ _ _ h with hp | h2
    · exact parityProp1_ff st i y _ _ cl hy hbff hp
    rcases orElse_some _ _ _ h2 with hp | h3
    · exact parityProp1_ff st i y _ _ cl hy hbff hp
    obtain ⟨j, _, hj⟩ := findSomeEx _ _ cl h3
    rcases orElse_some _ _ _ hj with hp | hp
    · revert hp
      split
      case isTrue hja =>
        intro hp
        exact parityProp2_ff st i y _ _ _ cl hy hbff (ff_neg_of_currTrue st _ hja) hp
      case isFalse => intro hp; exact absurd hp (by simp)
    · revert hp
      split
      case isTrue hjx =>
        intro hp
        exact parityProp2_ff st i y _ _ _ cl hy hbff (ff_neg_of_currTrue st _ hjx) hp
      case isFalse => intro hp; exact absurd hp (by simp)

theorem parityStep3_ff (st : State) (x : Nat) (i : Ineq) (a b y : Pol)
    (cl : List (Bool × SC)) (hy : tryEvalP st y = some 0)
    (h : parityStep3 st x i a b y = some cl) :
    ∀ l ∈ cl, l.1 = true → isForcedFalse st l.2 = true := by
  rw [parityStep3] at h
  split at h
  · exact parityBlockA_ff st x i a b y cl hy h
  · split at h
    · exact parityBlockB_ff st x i a b y cl hy h
    · exact absurd h (by simp)

theorem parity_eval_ff (st : State) (v : Nat) (i : Ineq) (e : Emitted)
    (h : tryParity st v i = some e) :
    ∀ l ∈ e.clause, l.1 = true → isForcedFalse st l.2 = true := by
  rw [tryParity] at h
  revert h
  split
  · intro h; exact absurd h (by simp)
  case _ a b y hax =>
    intro h
    have hy := isAxBeq0_facts st v i a b y hax
    split at h
    · exact absurd h (by simp)
    split at h
    · exact absurd h (by simp)
    simp only [Option.map_eq_some'] at h
    obtain ⟨cl, hcl, he⟩ := h
    rw [← he]
    rcases orElse_some _ _ _ hcl with hp | h2
    · exact parityStep1_ff st v i a b y cl hy hp
    rcases orElse_some _ _ _ h2 with hp | hp
    · exact parityStep2_ff st v i a b y cl hy hp
    · exact parityStep3_ff st v i a b y cl hy hp

theorem st6w_wf : WFTrail st6w := by
  intro c r hmem
  have hs : st6w.search = [.boolItem ⟨.ule [(1, [0])] [(3, [])], true⟩ false] := rfl
  rw [hs, List.mem_singleton] at hmem
  injection hmem with h1 h2
  subst h1; subst h2
  decide

/-- Claim C8 (amended): for every lemma finalised as a propagation by
try_mul_bounds or try_parity from a well-formed trail (every boolean
trail item has bvalue l_true), every literal added via insert_eval
(polarity true in the emitted clause) is forced-false — bvalue-false on
the trail or semantically false under the current assignment — at the
moment the clause is built; semantic falsity alone is not guaranteed. -/
theorem c8_polarity_amended (st : State) (v : Nat) (i : Ineq) (e : Emitted)
    (hwf : WFTrail st)
    (h : tryMulBounds st v i = some e ∨ tryParity st v i = some e) :
    ∀ l ∈ e.clause, l.1 = true → isForcedFalse st l.2 = true := by
  rcases h with h | h
  · exact mulBounds_eval_ff st v i e hwf h
  · exact parity_eval_ff st v i e h

/-- Witness for C8 amended: the concrete propagation of try_mul_bounds on
st6w; its insert_eval literal ¬(x ≤ 3) is forced-false. -/
theorem c8_polarity_witness :
    WFTrail st6w ∧
    isForcedFalse st6w ⟨PAtom.ule [(1, [0])] [(3, [])], false⟩ = true :=
  ⟨st6w_wf,
   c8_polarity_amended st6w 1 (fromUle c6c) emitted6 st6w_wf (Or.inl (by decide))
     (true, ⟨PAtom.ule [(1, [0])] [(3, [])], false⟩) (by decide) rfl⟩

theorem consumeClass_inv (g : EG) (off : Nat) : ∀ sibs seen,
    (∀ w ∈ seen, w ∈ (consumeClass g off sibs seen).1) ∧
    (∀ t ∈ (consumeClass g off sibs seen).2,
        t.1 ∈ (consumeClass g off sibs seen).1 ∧ t.1 ∉ seen ∧ t.2.2 = off ∧
        isVarD (2 ^ g.K) (g.var2pdd t.1) = some t.2.1) ∧
    ((consumeClass g off sibs seen).2.map (fun t => t.1)).Nodup := by
  intro sibs
  induction sibs with
  | nil =>
    intro seen
    refine ⟨fun w hw => hw, fun t ht => absurd ht (by simp [consumeClass]), ?_⟩
    simp [consumeClass]
  | cons sib sibs ih =>
    intro seen
    cases htv : g.thVar sib with
    | none =>
      have hred : consumeClass g off (sib :: sibs) seen = consumeClass g off sibs seen := by
        rw [consumeClass, htv]
      rw [hred]
      exact ih seen
    | some w =>
      by_cases hw : w ∈ seen
      · have hred : consumeClass g off (sib :: sibs) seen = consumeClass g off sibs seen := by
          simp only [consumeClass, htv]
          rw [if_pos hw]
        rw [hred]
        exact ih seen
      · obtain ⟨ih1, ih2, ih3⟩ := ih (w :: seen)
        cases hv : isVarD (2 ^ g.K) (g.var2pdd w) with
        | some pv =>
          have hred : consumeClass g off (sib :: sibs) seen =
              ((consumeClass g off sibs (w :: seen)).1,
               (w, pv, off) :: (consumeClass g off sibs (w :: seen)).2) := by
            simp only [consumeClass, htv]
            rw [if_neg hw, hv]
          rw [hred]
          refine ⟨fun v hv2 => ih1 v (List.mem_cons_of_mem w hv2), ?_, ?_⟩
          · intro t ht
            rcases List.mem_cons.mp ht with rfl | ht2
            · exact ⟨ih1 w (List.mem_cons_self w seen), hw, rfl, hv⟩
            · obtain ⟨h1, h2, h3, h4⟩ := ih2 t ht2
              exact ⟨h1, fun hc => h2 (List.mem_cons_of_mem w hc), h3, h4⟩
          · rw [List.map_cons, List.nodup_cons]
            refine ⟨?_, ih3⟩
            intro hc
            obtain ⟨t, ht, hteq⟩ := List.mem_map.mp hc
            exact (ih2 t ht).2.1 (hteq ▸ List.mem_cons_self w seen)
        | none =>
          have hred : consumeClass g off (sib :: sibs) seen =
              consumeClass g off sibs (w :: seen) := by
            simp only [consumeClass, htv]
            rw [if_neg hw, hv]
          rw [hred]
          refine ⟨fun v hv2 => ih1 v (List.mem_cons_of_mem w hv2), ?_, ih3⟩
          intro t ht
          obtain ⟨h1, h2, h3, h4⟩ := ih2 t ht
          exact ⟨h1, fun hc => h2 (List.mem_cons_of_mem w hc), h3, h4⟩

theorem suffixGo_inv (g : EG) : ∀ slices seen out,
    (∀ t ∈ out, t.1 ∈ seen) →
    ((out.map (fun t => t.1)).Nodup) →
    (∀ t ∈ out, t.2.2 = 0 ∧ isVarD (2 ^ g.K) (g.var2pdd t.1) = some t.2.1) →
    ((suffixGo g slices seen out).map (fun t => t.1)).Nodup ∧
    (∀ t ∈ suffixGo g slices seen out,
        t.2.2 = 0 ∧ isVarD (2 ^ g.K) (g.var2pdd t.1) = some t.2.1) := by
  intro slices
  induction slices with
  | nil =>
    intro seen out hseen hnd hfacts
    rw [suffixGo]
    exact ⟨hnd, hfacts⟩
  | cons s rest ih =>
    obtain ⟨n, off⟩ := s
    intro seen out hseen hnd hfacts
    by_cases hoff : (off != 0) = true
    · have hred : suffixGo g ((n, off) :: rest) seen out = out := by
        rw [suffixGo, if_pos hoff]
      rw [hred]
      exact ⟨hnd, hfacts⟩
    · have hoff0 : off = 0 := by
        simpa using hoff
      have hred : suffixGo g ((n, off) :: rest) seen out =
          suffixGo g rest (consumeClass g off (g.classOf n) seen).1
            (out ++ (consumeClass g off (g.classOf n) seen).2) := by
        rw [suffixGo, if_neg hoff]
      rw [hred]
      obtain ⟨cc1, cc2, cc3⟩ := consumeClass_inv g off (g.classOf n) seen
      apply ih
      · intro t ht
        rcases List.mem_append.mp ht with h1 | h2
        · exact cc1 t.1 (hseen t h1)
        · exact (cc2 t h2).1
      · rw [List.map_append, List.nodup_append]
        refine ⟨hnd, cc3, ?_⟩
        intro a ha hb
        obtain ⟨t, ht, hteq⟩ := List.mem_map.mp ha
        obtain ⟨u, hu, hueq⟩ := List.mem_map.mp hb
        apply (cc2 u hu).2.1
        rw [hueq, ← hteq]
        exact hseen t ht
      · intro t ht
        rcases List.mem_append.mp ht with h1 | h2
        · exact hfacts t h1
        · obtain ⟨_, _, h3, h4⟩ := cc2 t h2
          exact ⟨hoff0 ▸ h3, h4⟩

theorem sliceGo_inv (g : EG) : ∀ slices seen out,
    (∀ t ∈ out, t.1 ∈ seen) →
    ((out.map (fun t => t.1)).Nodup) →
    ((sliceGo g slices seen out).map (fun t => t.1)).Nodup := by
  intro slices
  induction slices with
  | nil =>
    intro seen out _ hnd
    rw [sliceGo]
    exact hnd
  | cons s rest ih =>
    obtain ⟨n, off⟩ := s
    intro seen out hseen hnd
    have hred : sliceGo g ((n, off) :: rest) seen out =
        sliceGo g rest (consumeClass g off (g.classOf n) seen).1
          (out ++ (consumeClass g off (g.classOf n) seen).2) := by
      rw [sliceGo]
    rw [hred]
    obtain ⟨cc1, cc2, cc3⟩ := consumeClass_inv g off (g.classOf n) seen
    apply ih
    · intro t ht
      rcases List.mem_append.mp ht with h1 | h2
      · exact cc1 t.1 (hseen t h1)
      · exact (cc2 t h2).1
    · rw [List.map_append, List.nodup_append]
      refine ⟨hnd, cc3, ?_⟩
      intro a ha hb
      obtain ⟨t, ht, hteq⟩ := List.mem_map.mp ha
      obtain ⟨u, hu, hueq⟩ := List.mem_map.mp hb
      apply (cc2 u hu).2.1
      rw [hueq, ← hteq]
      exact hseen t ht

/-- Claim C10: get_bitvector_suffixes yields only pairs at offset 0 and
de-duplicates by theory variable (each theory variable, hence — when
distinct theory variables carry distinct pdd variables — each pvar, is
pushed at most once), while get_bitvector_sub_slices and
get_bitvector_super_slices impose no offset restriction: on the concrete
e-graph g10 the sub-slice query yields a pair at offset 3 and the
super-slice query a pair at offset 2, which the suffix query rejects. -/
theorem c10_slice_queries (g : EG) (pv : Nat)
    (hinj : ∀ w1 w2 p, isVarD (2 ^ g.K) (g.var2pdd w1) = some p →
        isVarD (2 ^ g.K) (g.var2pdd w2) = some p → w1 = w2) :
    (∀ t ∈ getSuffixesT g pv, t.2.2 = 0) ∧
    (getSuffixes g pv).Nodup ∧
    ((getSubSlicesT g pv).map (fun t => t.1)).Nodup ∧
    ((getSuperSlicesT g pv).map (fun t => t.1)).Nodup ∧
    getSuffixesT g10 0 = [(0, 0, 0)] ∧
    getSubSlicesT g10 0 = [(0, 0, 0), (5, 2, 3)] ∧
    getSuperSlicesT g10 0 = [(6, 3, 2)] := by
  obtain ⟨hnd, hfacts⟩ := suffixGo_inv g (g.subSlices (g.var2enode (g.pddvar2var pv))) [] []
    (by simp) (by simp) (by simp)
  refine ⟨fun t ht => (hfacts t ht).1, ?_, ?_, ?_, by decide, by decide, by decide⟩
  · rw [getSuffixes]
    have hl : List.Nodup (getSuffixesT g pv) := List.Nodup.of_map _ hnd
    refine List.Nodup.map_on ?_ hl
    intro t ht u hu heq
    have h1 := (hfacts t ht).2
    have h2 := (hfacts u hu).2
    have hw : t.1 = u.1 := by
      apply hinj t.1 u.1 t.2.1 h1
      rw [← heq] at h2
      exact h2
    exact Prod.ext hw heq
  · exact sliceGo_inv g (g.subSlices (g.var2enode (g.pddvar2var pv))) [] []
      (by simp) (by simp)
  · exact sliceGo_inv g (g.superSlices (g.var2enode (g.pddvar2var pv))) [] []
      (by simp) (by simp)

/-- Witness for C10 at the concrete e-graph g10 and pvar 0. -/
theorem c10_slice_queries_witness :
    (∀ t ∈ getSuffixesT g10 0, t.2.2 = 0) ∧ (getSuffixes g10 0).Nodup := by
  have hinj : ∀ w1 w2 p, isVarD (2 ^ g10.K) (g10.var2pdd w1) = some p →
      isVarD (2 ^ g10.K) (g10.var2pdd w2) = some p → w1 = w2 := by
    have hcase : ∀ w p, isVarD (2 ^ g10.K) (g10.var2pdd w) = some p →
        (w = 0 ∧ p = 0) ∨ (w = 5 ∧ p = 2) ∨ (w = 6 ∧ p = 3) := by
      intro w p h
      have hg : g10.var2pdd = fun w => if w == 0 then pvar 0 else if w == 5 then pvar 2
          else if w == 6 then pvar 3 else [] := rfl
      rw [hg] at h
      by_cases h0 : w = 0
      · subst h0
        simp only [beq_self_eq_true, if_pos] at h
        left
        have : p = 0 := by
          have hv : isVarD (2 ^ g10.K) (pvar 0) = some 0 := by decide
          rw [hv] at h
          exact (Option.some.injEq _ _).mp h.symm
        exact ⟨rfl, this⟩
      · by_cases h5 : w = 5
        · subst h5
          simp only [show ((5 : Nat) == 0) = false from rfl, Bool.false_eq_true, if_false,
            beq_self_eq_true, if_pos] at h
          right; left
          have hv : isVarD (2 ^ g10.K) (pvar 2) = some 2 := by decide
          rw [hv] at h
          exact ⟨rfl, ((Option.some.injEq _ _).mp h.symm)⟩
        · by_cases h6 : w = 6
          · subst h6
            simp only [show ((6 : Nat) == 0) = false from rfl,
              show ((6 : Nat) == 5) = false from rfl, Bool.false_eq_true, if_false,
              beq_self_eq_true, if_pos] at h
            right; right
            have hv : isVarD (2 ^ g10.K) (pvar 3) = some 3 := by decide
            rw [hv] at h
            exact ⟨rfl, ((Option.some.injEq _ _).mp h.symm)⟩
          · have hb0 : (w == 0) = false := by simpa using h0
            have hb5 : (w == 5) = false := by simpa using h5
            have hb6 : (w == 6) = false := by simpa using h6
            simp only [hb0, hb5, hb6, Bool.false_eq_true, if_false] at h
            have hv : isVarD (2 ^ g10.K) ([] : Pol) = none := by decide
            rw [hv] at h
            cases h
    intro w1 w2 p h1 h2
    rcases hcase w1 p h1 with ⟨rfl, rfl⟩ | ⟨rfl, rfl⟩ | ⟨rfl, rfl⟩ <;>
      rcases hcase w2 _ h2 with ⟨rfl, hp⟩ | ⟨rfl, hp⟩ | ⟨rfl, hp⟩ <;>
        first | rfl | (exact absurd hp (by decide))
  obtain ⟨h1, h2, _⟩ := c10_slice_queries g10 0 hinj
  exact ⟨h1, h2⟩
